import Mathlib

/-!
Verification of the core of a small content-addressable object store
(a git-like content tracker implemented in a single Python file,
src/libwyag.py).  The Python functions are shallowly embedded as
executable Lean definitions over byte strings modelled as lists of
natural numbers (each byte a value below 256).  Python `bytes.find`,
slicing, `bytes.replace`, `int(...)`, exceptions and the filesystem are
modelled explicitly; fallible operations return an Except value whose
error constructors name the Python exception they stand for.
-/

namespace Wyag

/-- A byte string: a list of byte values.  ASCII codes are used for text. -/
abbrev Bytes := List Nat

/-- Byte-string literal helper: the ASCII/codepoint bytes of a Lean string.
Only used with ASCII strings, where codepoints and bytes coincide. -/
def bs (s : String) : Bytes := s.data.map Char.toNat

/-- Index of the first occurrence of byte c in l, counted from the head;
none if absent.  Helper for the model of Python bytes.find. -/
def idxOfByte (c : Nat) : Bytes → Option Nat
  | [] => none
  | a :: t => if a = c then some 0 else (idxOfByte c t).map (· + 1)

/-- Model of Python bytes.find(bytes([c]), start): the index of the first
occurrence of byte c at or after position start, or -1 if there is none.
A negative start is clamped the way Python clamps slice indices
(len + start, but not below 0). -/
def bfind (raw : Bytes) (c : Nat) (start : Int) : Int :=
  let s : Nat := if start < 0 then (raw.length + start).toNat else start.toNat
  match idxOfByte c (raw.drop s) with
  | some i => (s + i : Nat)
  | none => -1

/-- Clamp of a Python slice endpoint to an index of a string of length len. -/
def pyIdx (len : Nat) (i : Int) : Nat :=
  if i < 0 then (len + i).toNat else min i.toNat len

/-- Model of the Python slice raw[a:b] (step 1), including the handling of
negative and out-of-range endpoints. -/
def pySlice (raw : Bytes) (a b : Int) : Bytes :=
  let lo := pyIdx raw.length a
  let hi := pyIdx raw.length b
  (raw.drop lo).take (hi - lo)

/-- Fuelled worker for the model of bytes.replace; the fuel dominates the
length of the string, so the top-level wrapper below never exhausts it.
Structural recursion on the fuel keeps the function kernel-computable. -/
def breplaceGo (old new : Bytes) : Nat → Bytes → Bytes
  | 0, s => s
  | _ + 1, [] => []
  | fuel + 1, a :: s =>
    if old ≠ [] ∧ old.isPrefixOf (a :: s) then
      new ++ breplaceGo old new fuel ((a :: s).drop old.length)
    else
      a :: breplaceGo old new fuel s

/-- Model of Python bytes.replace(old, new): replace the non-overlapping
occurrences of old, scanning from the left.  (Python inserts new between
all characters when old is empty; the source only ever replaces the
non-empty patterns b"\n " and b"\n", for which this model is exact.) -/
def breplace (old new s : Bytes) : Bytes :=
  breplaceGo old new s.length s

theorem breplaceGo_congr (old new : Bytes) :
    ∀ f₁ f₂ s, s.length ≤ f₁ → s.length ≤ f₂ →
      breplaceGo old new f₁ s = breplaceGo old new f₂ s := by
  intro f₁
  induction f₁ with
  | zero =>
    intro f₂ s h₁ _
    have hs : s = [] := List.length_eq_zero.mp (Nat.le_zero.mp h₁)
    subst hs
    cases f₂ <;> rfl
  | succ f ih =>
    intro f₂ s h₁ h₂
    cases s with
    | nil => cases f₂ <;> rfl
    | cons a s =>
      cases f₂ with
      | zero => simp at h₂
      | succ f₂ =>
        simp only [breplaceGo]
        by_cases hp : old ≠ [] ∧ old.isPrefixOf (a :: s)
        · simp only [if_pos hp]
          have hlen : 1 ≤ old.length := by
            cases old with
            | nil => exact absurd rfl hp.1
            | cons x xs => simp
          have hd : ((a :: s).drop old.length).length ≤ f := by
            simp only [List.length_drop, List.length_cons]
            simp only [List.length_cons] at h₁
            omega
          have hd₂ : ((a :: s).drop old.length).length ≤ f₂ := by
            simp only [List.length_drop, List.length_cons]
            simp only [List.length_cons] at h₂
            omega
          rw [ih _ _ hd hd₂]
        · simp only [if_neg hp]
          have hs₁ : s.length ≤ f := by simp only [List.length_cons] at h₁; omega
          have hs₂ : s.length ≤ f₂ := by simp only [List.length_cons] at h₂; omega
          rw [ih _ _ hs₁ hs₂]

/-- Unfolding equation of breplace on the empty string. -/
@[simp] theorem breplace_nil (old new : Bytes) : breplace old new [] = [] := rfl

/-- Unfolding equation of breplace on a non-empty string. -/
theorem breplace_cons (old new : Bytes) (a : Nat) (s : Bytes) :
    breplace old new (a :: s) =
      if old ≠ [] ∧ old.isPrefixOf (a :: s) then
        new ++ breplace old new ((a :: s).drop old.length)
      else
        a :: breplace old new s := by
  show breplaceGo old new (s.length + 1) (a :: s) = _
  simp only [breplaceGo]
  by_cases hp : old ≠ [] ∧ old.isPrefixOf (a :: s)
  · simp only [if_pos hp]
    have hlen : 1 ≤ old.length := by
      cases old with
      | nil => exact absurd rfl hp.1
      | cons x xs => simp
    have hle : ((a :: s).drop old.length).length ≤ s.length := by
      simp only [List.length_drop, List.length_cons]
      omega
    rw [breplaceGo_congr old new s.length ((a :: s).drop old.length).length
      ((a :: s).drop old.length) hle (le_refl _)]
    rfl
  · simp only [if_neg hp]
    rfl

/-- Fuelled worker for the decimal rendering of a natural number; the fuel
dominates the value, which shrinks at every division by ten. -/
def natDecDigitsGo : Nat → Nat → Bytes
  | 0, n => [48 + n % 10]
  | fuel + 1, n =>
    if n < 10 then [48 + n]
    else natDecDigitsGo fuel (n / 10) ++ [48 + n % 10]

/-- Decimal ASCII digits of a natural number, most significant first.
Model of Python str(n).encode() for a non-negative integer n. -/
def natDecDigits (n : Nat) : Bytes := natDecDigitsGo n n

theorem natDecDigitsGo_congr :
    ∀ f₁ f₂ n, n ≤ f₁ → n ≤ f₂ → natDecDigitsGo f₁ n = natDecDigitsGo f₂ n := by
  intro f₁
  induction f₁ with
  | zero =>
    intro f₂ n h₁ _
    have : n = 0 := Nat.le_zero.mp h₁
    subst this
    cases f₂ with
    | zero => rfl
    | succ f => simp [natDecDigitsGo]
  | succ f ih =>
    intro f₂ n h₁ h₂
    cases f₂ with
    | zero =>
      have : n = 0 := Nat.le_zero.mp h₂
      subst this
      simp [natDecDigitsGo]
    | succ f₂ =>
      simp only [natDecDigitsGo]
      by_cases hn : n < 10
      · simp [hn]
      · simp only [if_neg hn]
        have hdiv : n / 10 < n := Nat.div_lt_self (by omega) (by omega)
        rw [ih f₂ (n / 10) (by omega) (by omega)]

/-- Unfolding equation of natDecDigits. -/
theorem natDecDigits_eq (n : Nat) :
    natDecDigits n = if n < 10 then [48 + n] else natDecDigits (n / 10) ++ [48 + n % 10] := by
  by_cases hn : n < 10
  · simp only [if_pos hn, natDecDigits]
    cases n with
    | zero => rfl
    | succ m => simp only [natDecDigitsGo, if_pos hn]
  · simp only [if_neg hn, natDecDigits]
    have hpos : 0 < n := by omega
    obtain ⟨m, rfl⟩ : ∃ m, n = m + 1 := ⟨n - 1, by omega⟩
    simp only [natDecDigitsGo, if_neg hn]
    have hdiv : (m + 1) / 10 < m + 1 := Nat.div_lt_self (by omega) (by omega)
    rw [natDecDigitsGo_congr m ((m + 1) / 10) ((m + 1) / 10) (by omega) (le_refl _)]

/-- Errors raised by the embedded Python code; each constructor names the
Python exception (or, for outOfFuel, a run that exhausts the recursion
model, which corresponds to a Python RecursionError / infinite loop). -/
inductive PyErr where
  | assertFail       -- AssertionError
  | indexError       -- IndexError: index out of range
  | typeError        -- TypeError
  | valueError       -- ValueError (e.g. int() on a malformed literal)
  | keyError         -- KeyError
  | nameError        -- NameError (GitTree / GitTag are never defined)
  | attributeError   -- AttributeError (e.g. None.kvlm after a failed read)
  | unicodeDecodeError -- UnicodeDecodeError from bytes.decode
  | unimplemented    -- Exception("Unimplemented!") from GitObject
  | malformed        -- Exception("Malformed object {sha}: bad length")
  | unknownType      -- Exception("Unknown type ...")
  | notADirectory    -- Exception("Not a directory ...") from repo_dir
  | notARepo         -- Exception("Not a Git repository ...")
  | configMissing    -- Exception("Configuration file missing")
  | unsupportedVersion -- Exception("Unsupported repositoryformatversion ...")
  | noGitDir         -- Exception("No git directory.")
  | configError      -- configparser NoSectionError / NoOptionError
  | outOfFuel        -- RecursionError / non-terminating loop
deriving DecidableEq, Repr

instance {ε α : Type} [DecidableEq ε] [DecidableEq α] : DecidableEq (Except ε α) :=
  fun x y =>
    match x, y with
    | .error a, .error b =>
      if h : a = b then .isTrue (by rw [h]) else .isFalse (by simp [h])
    | .ok a, .ok b =>
      if h : a = b then .isTrue (by rw [h]) else .isFalse (by simp [h])
    | .error _, .ok _ => .isFalse (by simp)
    | .ok _, .error _ => .isFalse (by simp)

/-- Whitespace bytes stripped by Python int() around an integer literal. -/
def isPyWs (b : Nat) : Bool :=
  b = 32 || b = 9 || b = 10 || b = 13 || b = 11 || b = 12

/-- Digit test for ASCII bytes. -/
def isDigitByte (b : Nat) : Bool := 48 ≤ b && b ≤ 57

/-- Accumulating parse of the digits of an integer literal after its first
digit; Python int() allows a single underscore between two digits. -/
def digitsFold : Nat → Bytes → Option Nat
  | acc, [] => some acc
  | acc, [b] => if isDigitByte b then some (acc * 10 + (b - 48)) else none
  | acc, b :: c :: t =>
    if isDigitByte b then digitsFold (acc * 10 + (b - 48)) (c :: t)
    else if b = 95 ∧ isDigitByte c then digitsFold (acc * 10 + (c - 48)) t
    else none

/-- Numeric value of a non-empty run of ASCII digits (with the underscore
grouping Python int() accepts); none when malformed. -/
def pyDigitsVal : Bytes → Option Nat
  | [] => none
  | b :: t => if isDigitByte b then digitsFold (b - 48) t else none

/-- Model of Python int(s) for an ASCII string s: surrounding whitespace is
stripped, an optional sign is read, and the digit run is evaluated;
a ValueError is raised on any malformed literal. -/
def pyIntCore : Bytes → Except PyErr Int
  | [] => .error .valueError
  | c :: t =>
    if c = 43 then
      match pyDigitsVal t with
      | some n => .ok (n : Int)
      | none => .error .valueError
    else if c = 45 then
      match pyDigitsVal t with
      | some n => .ok (-(n : Int))
      | none => .error .valueError
    else
      match pyDigitsVal (c :: t) with
      | some n => .ok (n : Int)
      | none => .error .valueError

def pyInt (s : Bytes) : Except PyErr Int :=
  pyIntCore (((s.dropWhile isPyWs).reverse.dropWhile isPyWs).reverse)

/-- Model of bytes.decode("ascii"): succeeds exactly when every byte is
below 128, returning the bytes themselves (text and bytes share codes). -/
def pyDecodeAscii (s : Bytes) : Except PyErr Bytes :=
  if s.all (· < 128) then .ok s else .error .unicodeDecodeError

/-! ## The KVLM codec (kvlm_parse / kvlm_serialize)

A parsed KVLM document is the OrderedDict the Python code builds: the
ordered field entries (each value either a single byte string or, for a
repeated key, a Python list of byte strings) plus the message stored
under the sentinel key None.  kvlm_parse only ever adds the None entry
last, and kvlm_serialize skips it during field iteration and reads it at
the end, so the document is modelled as a field list plus a message. -/

/-- Value of one field of a KVLM document: Python stores either a plain
byte string or (after a repeated key) a list of byte strings. -/
inductive KvVal where
  | single (v : Bytes)
  | multi (vs : List Bytes)
deriving DecidableEq, Repr

/-- An ordered KVLM document: fields in insertion order plus the message
(the entry the Python dict holds under the key None). -/
structure KVLM where
  fields : List (Bytes × KvVal)
  message : Bytes
deriving DecidableEq, Repr

/-- The accumulating dict of kvlm_parse before its None entry is added. -/
abbrev KvDict := List (Bytes × KvVal)

/-- Model of the dict update in kvlm_parse: a new key is appended, a
repeated key has its entry (kept in place) promoted to a list or extended. -/
def kvlmInsert (d : KvDict) (k v : Bytes) : KvDict :=
  match d with
  | [] => [(k, .single v)]
  | (k₀, val₀) :: rest =>
    if k₀ = k then
      match val₀ with
      | .single v₀ => (k₀, .multi [v₀, v]) :: rest
      | .multi vs => (k₀, .multi (vs ++ [v])) :: rest
    else (k₀, val₀) :: kvlmInsert rest k v

/-- Model of the continuation-line scan of kvlm_parse (its while loop):
from the current end position, find the next newline and stop unless the
byte that follows it is a space.  Reading raw[end+1] raises IndexError
when end+1 is past the end of raw (Python indexes raw[0] when the find
returned -1, since -1 + 1 = 0).  The fuel argument bounds the number of
iterations; a run that returns outOfFuel corresponds to a Python
execution that loops forever (possible only when a find wraps to -1),
and the callers pass enough fuel for every terminating execution. -/
def kvlmScanEnd (raw : Bytes) : Nat → Int → Except PyErr Int
  | 0, _ => .error .outOfFuel
  | fuel + 1, e =>
    let e' := bfind raw 10 (e + 1)
    match raw.get? (e' + 1).toNat with
    | none => .error .indexError
    | some b => if b = 32 then kvlmScanEnd raw fuel e' else .ok e'

/-- Model of kvlm_parse(raw, start, dict).  Each recursive call either
advances start (a found newline is at or after start + 1) or resets it
to 0 when a find returned -1, so raw.length + 2 units of fuel cover every
terminating Python execution; outOfFuel corresponds to a RecursionError. -/
def kvlmParseGo (raw : Bytes) : Nat → Nat → KvDict → Except PyErr KVLM
  | 0, _, _ => .error .outOfFuel
  | fuel + 1, start, d =>
    let space := bfind raw 32 start
    let endline := bfind raw 10 start
    if space < 0 ∨ endline < space then
      if endline = (start : Int) then .ok ⟨d, raw.drop (start + 1)⟩
      else .error .assertFail
    else
      let key := pySlice raw start space
      match kvlmScanEnd raw (raw.length + 2) start with
      | .error e => .error e
      | .ok e =>
        let value := breplace [10, 32] [10] (pySlice raw (space + 1) e)
        kvlmParseGo raw fuel (e + 1).toNat (kvlmInsert d key value)

/-- Model of the top-level call kvlm_parse(raw): start 0, fresh dict. -/
def kvlm_parse (raw : Bytes) : Except PyErr KVLM :=
  kvlmParseGo raw (raw.length + 2) 0 []

/-- Normalisation of a field value to a list, as done by both
kvlm_serialize and log_graphviz (if type(val) != list: val = [val]). -/
def kvValList : KvVal → List Bytes
  | .single v => [v]
  | .multi vs => vs

/-- One serialized field line: key, space, folded value, newline
(kvlm_serialize folds each newline of the value into newline + space). -/
def serializeLine (k v : Bytes) : Bytes :=
  k ++ [32] ++ breplace [10] [10, 32] v ++ [10]

/-- The field lines a document's field list expands to, in order. -/
def linesOf (fs : List (Bytes × KvVal)) : List (Bytes × Bytes) :=
  fs.flatMap fun kv => (kvValList kv.2).map fun v => (kv.1, v)

/-- Concatenation of serialized field lines. -/
def serializeLines (ls : List (Bytes × Bytes)) : Bytes :=
  (ls.map fun kv => serializeLine kv.1 kv.2).flatten

/-- Model of kvlm_serialize: the field lines in iteration order (None
skipped, list values one line per element), then a blank line, the
message, and a trailing newline. -/
def kvlm_serialize (kvlm : KVLM) : Bytes :=
  serializeLines (linesOf kvlm.fields) ++ [10] ++ kvlm.message ++ [10]

/-! ## Lemmas about the byte-level primitives -/

theorem idxOfByte_not_mem {c : Nat} {w : Bytes} (hc : c ∉ w) : idxOfByte c w = none := by
  induction w with
  | nil => rfl
  | cons a t ih =>
    simp only [idxOfByte]
    rw [if_neg (by simp at hc; omega), ih (by simp at hc; tauto)]
    rfl

theorem idxOfByte_append {c : Nat} {w : Bytes} (u : Bytes) (hc : c ∉ w) :
    idxOfByte c (w ++ u) = (idxOfByte c u).map (· + w.length) := by
  induction w with
  | nil =>
    simp only [List.nil_append, List.length_nil]
    cases idxOfByte c u <;> simp
  | cons a t ih =>
    have hac : ¬ a = c := by simp at hc; omega
    have hct : c ∉ t := by simp at hc; tauto
    rw [List.cons_append]
    show (if a = c then some 0 else (idxOfByte c (t ++ u)).map (· + 1)) = _
    rw [if_neg hac, ih hct]
    cases idxOfByte c u <;> simp [List.length_cons] <;> omega

theorem idxOfByte_cons_self (c : Nat) (t : Bytes) : idxOfByte c (c :: t) = some 0 := by
  simp [idxOfByte]

/-- Value of bfind when the sought byte first occurs right after a
c-free block w located at offset p. -/
theorem bfind_eq {raw : Bytes} {c : Nat} {p : Nat} {w rest : Bytes}
    (hd : raw.drop p = w ++ c :: rest) (hc : c ∉ w) :
    bfind raw c p = (p + w.length : Nat) := by
  simp only [bfind]
  rw [if_neg (by omega), Int.toNat_natCast, hd, idxOfByte_append _ hc, idxOfByte_cons_self]
  simp

/-- Value of bfind when the sought byte does not occur at or after p. -/
theorem bfind_none {raw : Bytes} {c : Nat} {p : Nat} (hc : c ∉ raw.drop p) :
    bfind raw c p = -1 := by
  simp only [bfind]
  rw [if_neg (by omega), Int.toNat_natCast, idxOfByte_not_mem hc]

/-- Lower bound on bfind: past a c-free block the result is -1 or beyond
the block. -/
theorem bfind_ge {raw : Bytes} {c : Nat} {p : Nat} {w u : Bytes}
    (hd : raw.drop p = w ++ u) (hc : c ∉ w) :
    bfind raw c p = -1 ∨ (p + w.length : Nat) ≤ bfind raw c p := by
  simp only [bfind]
  rw [if_neg (by omega), Int.toNat_natCast, hd, idxOfByte_append _ hc]
  cases idxOfByte c u with
  | none => left; rfl
  | some i =>
    right
    simp only [Option.map_some']
    push_cast
    omega

theorem idxOfByte_isSome_of_mem {c : Nat} {l : Bytes} (hc : c ∈ l) :
    ∃ i, idxOfByte c l = some i := by
  induction l with
  | nil => simp at hc
  | cons a t ih =>
    by_cases ha : a = c
    · exact ⟨0, by simp [idxOfByte, ha]⟩
    · simp only [List.mem_cons] at hc
      obtain ⟨i, hi⟩ := ih (hc.resolve_left (fun h => ha h.symm))
      exact ⟨i + 1, by simp [idxOfByte, if_neg ha, hi]⟩

/-- Nonnegativity of bfind when the byte occurs at or after p. -/
theorem bfind_nonneg {raw : Bytes} {c : Nat} {p : Nat} (hc : c ∈ raw.drop p) :
    0 ≤ bfind raw c p := by
  simp only [bfind]
  rw [if_neg (by omega), Int.toNat_natCast]
  obtain ⟨i, hi⟩ := idxOfByte_isSome_of_mem hc
  rw [hi]
  positivity

/-- Evaluation of a pySlice with in-range natural endpoints. -/
theorem pySlice_eq (raw : Bytes) (a b : Nat) (hab : a ≤ b) (hb : b ≤ raw.length) :
    pySlice raw (a : Int) (b : Int) = (raw.drop a).take (b - a) := by
  simp only [pySlice, pyIdx]
  rw [if_neg (by omega), if_neg (by omega), Int.toNat_natCast, Int.toNat_natCast]
  have h1 : min a raw.length = a := min_eq_left (le_trans hab hb)
  have h2 : min b raw.length = b := min_eq_left hb
  rw [h1, h2]

/-! ## Lemmas about the newline folding of values

The serializer folds each newline of a value into newline + space
(breplace [10] [10, 32]); the parser unfolds the captured run with
breplace [10, 32] [10].  These are the facts the round-trip rests on. -/

/-- Shorthand for the serializer's fold of a value. -/
def foldNl (v : Bytes) : Bytes := breplace [10] [10, 32] v

/-- Shorthand for the parser's unfold of a captured value. -/
def unfoldNl (v : Bytes) : Bytes := breplace [10, 32] [10] v

theorem foldNl_nil : foldNl [] = [] := rfl

theorem foldNl_cons_nl (t : Bytes) : foldNl (10 :: t) = 10 :: 32 :: foldNl t := by
  show breplace [10] [10, 32] (10 :: t) = _
  rw [breplace_cons]
  rw [if_pos (by simp [List.isPrefixOf])]
  rfl

theorem foldNl_cons {a : Nat} (t : Bytes) (ha : a ≠ 10) :
    foldNl (a :: t) = a :: foldNl t := by
  show breplace [10] [10, 32] (a :: t) = _
  rw [breplace_cons]
  rw [if_neg (by simp [List.isPrefixOf]; omega)]
  rfl

theorem foldNl_append (w u : Bytes) : foldNl (w ++ u) = foldNl w ++ foldNl u := by
  induction w with
  | nil => rfl
  | cons a t ih =>
    by_cases ha : a = 10
    · subst ha
      rw [List.cons_append, foldNl_cons_nl, foldNl_cons_nl, ih]
      rfl
    · rw [List.cons_append, foldNl_cons _ ha, foldNl_cons _ ha, ih]
      rfl

theorem foldNl_of_not_mem {w : Bytes} (hw : (10 : Nat) ∉ w) : foldNl w = w := by
  induction w with
  | nil => rfl
  | cons a t ih =>
    simp only [List.mem_cons] at hw
    rw [foldNl_cons t (by omega)]
    rw [ih (by tauto)]

theorem not_mem_foldNl_not_mem {w : Bytes} (hw : (10 : Nat) ∉ w) : (10 : Nat) ∉ foldNl w := by
  rw [foldNl_of_not_mem hw]; exact hw

theorem unfoldNl_nil : unfoldNl [] = [] := rfl

theorem unfoldNl_cons_pair (t : Bytes) : unfoldNl (10 :: 32 :: t) = 10 :: unfoldNl t := by
  show breplace [10, 32] [10] (10 :: 32 :: t) = _
  rw [breplace_cons]
  rw [if_pos (by simp [List.isPrefixOf])]
  rfl

theorem unfoldNl_cons {a : Nat} (s : Bytes)
    (h : ¬ ([10, 32] : Bytes).isPrefixOf (a :: s)) :
    unfoldNl (a :: s) = a :: unfoldNl s := by
  show breplace [10, 32] [10] (a :: s) = _
  rw [breplace_cons]
  rw [if_neg (by simp [h])]
  rfl

theorem unfoldNl_foldNl (v : Bytes) : unfoldNl (foldNl v) = v := by
  induction v with
  | nil => rfl
  | cons a t ih =>
    by_cases ha : a = 10
    · subst ha
      rw [foldNl_cons_nl, unfoldNl_cons_pair, ih]
    · rw [foldNl_cons _ ha, unfoldNl_cons _ (by simp [List.isPrefixOf]; omega), ih]

theorem length_le_foldNl (v : Bytes) : v.length ≤ (foldNl v).length := by
  induction v with
  | nil => simp [foldNl_nil]
  | cons a t ih =>
    by_cases ha : a = 10
    · subst ha; rw [foldNl_cons_nl]; simp; omega
    · rw [foldNl_cons _ ha]; simp; omega

/-- First-newline decomposition of an arbitrary byte string. -/
theorem nl_decomp (v : Bytes) :
    (10 : Nat) ∉ v ∨ ∃ w t, v = w ++ 10 :: t ∧ (10 : Nat) ∉ w := by
  induction v with
  | nil => left; simp
  | cons a s ih =>
    by_cases ha : a = 10
    · subst ha; right; exact ⟨[], s, rfl, by simp⟩
    · rcases ih with h | ⟨w, t, rfl, hw⟩
      · left; simp [ha, h]; omega
      · right
        exact ⟨a :: w, t, rfl, by simp [hw]; omega⟩

/-! ## Behaviour of the continuation-line scan -/

/-- Reading a byte at an offset described by a drop decomposition. -/
theorem get?_offset {raw : Bytes} {p : Nat} {pre u : Bytes}
    (hdrop : raw.drop p = pre ++ u) (j : Nat) :
    raw.get? (p + pre.length + j) = u.get? j := by
  rw [Nat.add_assoc, ← List.get?_drop, hdrop,
    List.get?_append_right (show pre.length ≤ pre.length + j by omega)]
  congr 1
  omega

/-- Dropping up to an offset described by a drop decomposition. -/
theorem drop_offset {raw : Bytes} {p : Nat} {pre u : Bytes}
    (hdrop : raw.drop p = pre ++ u) :
    raw.drop (p + pre.length) = u := by
  rw [← List.drop_drop, hdrop, List.drop_left]

/-- Unfolding equation of kvlmScanEnd at positive fuel. -/
theorem kvlmScanEnd_succ (raw : Bytes) (f : Nat) (e : Int) :
    kvlmScanEnd raw (f + 1) e =
      match raw.get? ((bfind raw 10 (e + 1)) + 1).toNat with
      | none => .error .indexError
      | some b => if b = 32 then kvlmScanEnd raw f (bfind raw 10 (e + 1))
                  else .ok (bfind raw 10 (e + 1)) := rfl

/-- One-iteration case of the scan: the value holds no newline, so the
first newline found past position p is the line terminator; the byte
after it decides between stop and IndexError. -/
theorem kvlmScanEnd_noNl {v raw pre rest : Bytes} {p f : Nat}
    (hnl : (10 : Nat) ∉ v) (hpre : (10 : Nat) ∉ pre)
    (hdrop : raw.drop (p + 1) = pre ++ foldNl v ++ 10 :: rest) :
    (rest = [] → kvlmScanEnd raw (f + 1) (p : Int) = .error .indexError) ∧
    (∀ b rs, rest = b :: rs → b ≠ 32 →
      kvlmScanEnd raw (f + 1) (p : Int) =
        .ok ((p + 1 + pre.length + (foldNl v).length : Nat) : Int)) := by
  have hfv : foldNl v = v := foldNl_of_not_mem hnl
  have hdrop' : raw.drop (p + 1) = (pre ++ v) ++ 10 :: rest := by
    rw [hdrop, hfv, List.append_assoc]
  have hcast : ((p : Int) + 1) = ((p + 1 : Nat) : Int) := by push_cast; ring
  have hfind : bfind raw 10 ((p + 1 : Nat) : Int) = ((p + 1) + (pre ++ v).length : Nat) :=
    bfind_eq hdrop' (by simp [hpre, hnl])
  have hget : raw.get? ((p + 1) + (pre ++ v).length + 1) = rest.get? 0 := by
    rw [get?_offset hdrop' 1]
    simp
  rw [kvlmScanEnd_succ, hcast, hfind]
  have htn : ((((p + 1) + (pre ++ v).length : Nat) : Int) + 1).toNat
      = (p + 1) + (pre ++ v).length + 1 := by
    push_cast
    omega
  rw [htn, hget]
  constructor
  · intro hrest
    subst hrest
    rfl
  · intro b rs hrest hb
    subst hrest
    simp only [List.get?_cons_zero]
    rw [if_neg hb]
    congr 1
    rw [hfv]
    simp only [List.length_append]
    push_cast
    ring

/-- Behaviour of the while loop of kvlm_parse on the serialized form of a
value v: starting just before a newline-free block pre (the tail of the
key plus the separating space), the scan stops exactly at the newline
that terminates the folded value when the byte after it is not a space;
when nothing at all follows that newline, reading raw[end+1] raises
IndexError.  The fuel only needs to dominate the newline count of v. -/
theorem kvlmScanEnd_spec :
    ∀ (n : Nat) (v : Bytes), v.length ≤ n →
    ∀ (raw pre rest : Bytes) (p fuel : Nat), (10 : Nat) ∉ pre →
    raw.drop (p + 1) = pre ++ foldNl v ++ 10 :: rest →
    v.length + 1 ≤ fuel →
    (rest = [] → kvlmScanEnd raw fuel (p : Int) = .error .indexError) ∧
    (∀ b rs, rest = b :: rs → b ≠ 32 →
      kvlmScanEnd raw fuel (p : Int) =
        .ok ((p + 1 + pre.length + (foldNl v).length : Nat) : Int)) := by
  intro n
  induction n with
  | zero =>
    intro v hv raw pre rest p fuel hpre hdrop hfuel
    have hv0 : v = [] := List.length_eq_zero.mp (Nat.le_zero.mp hv)
    subst hv0
    obtain ⟨f, rfl⟩ : ∃ f, fuel = f + 1 := ⟨fuel - 1, by omega⟩
    exact kvlmScanEnd_noNl (by simp) hpre hdrop
  | succ n ih =>
    intro v hv raw pre rest p fuel hpre hdrop hfuel
    obtain ⟨f, rfl⟩ : ∃ f, fuel = f + 1 := ⟨fuel - 1, by omega⟩
    rcases nl_decomp v with hnl | ⟨w, t, rfl, hw⟩
    · exact kvlmScanEnd_noNl hnl hpre hdrop
    · -- the value contains a newline: the loop skips a continuation line
      have hfv : foldNl (w ++ 10 :: t) = w ++ 10 :: 32 :: foldNl t := by
        rw [foldNl_append, foldNl_of_not_mem hw, foldNl_cons_nl]
      have hdropA : raw.drop (p + 1) = (pre ++ w) ++ 10 :: (32 :: (foldNl t ++ 10 :: rest)) := by
        rw [hdrop, hfv]
        simp
      have hdropB : raw.drop (p + 1) = (pre ++ w ++ [10]) ++ (32 :: (foldNl t ++ 10 :: rest)) := by
        rw [hdropA]
        simp
      have hcast : ((p : Int) + 1) = ((p + 1 : Nat) : Int) := by push_cast; ring
      have hfind : bfind raw 10 ((p + 1 : Nat) : Int) = ((p + 1) + (pre ++ w).length : Nat) :=
        bfind_eq hdropA (by simp [hpre, hw])
      have hget : raw.get? ((p + 1) + (pre ++ w).length + 1) = some 32 := by
        have hg := get?_offset hdropB 0
        have hidx : (p + 1) + (pre ++ w ++ [10]).length + 0
            = (p + 1) + (pre ++ w).length + 1 := by
          simp
          omega
        rw [hidx] at hg
        rw [hg]
        rfl
      rw [kvlmScanEnd_succ, hcast, hfind]
      have htn : ((((p + 1) + (pre ++ w).length : Nat) : Int) + 1).toNat
          = (p + 1) + (pre ++ w).length + 1 := by
        push_cast
        omega
      rw [htn, hget]
      simp only [if_pos rfl]
      -- the recursive iteration is the scan of the tail value t
      set q : Nat := (p + 1) + (pre ++ w).length with hq
      have hdrop' : raw.drop (q + 1) = [32] ++ foldNl t ++ 10 :: rest := by
        have hd := drop_offset hdropB
        have hidx : (p + 1) + (pre ++ w ++ [10]).length = q + 1 := by
          rw [hq]
          simp
          omega
        rw [hidx] at hd
        rw [hd]
        simp
      have hlt : t.length ≤ n := by
        simp only [List.length_append, List.length_cons] at hv
        omega
      have hfl : t.length + 1 ≤ f := by
        simp only [List.length_append, List.length_cons] at hfuel
        omega
      obtain ⟨hnone, hsome⟩ := ih t hlt raw [32] rest q f (by simp) hdrop' hfl
      constructor
      · intro hrest
        exact hnone hrest
      · intro b rs hrest hb
        rw [hsome b rs hrest hb]
        have harith : q + 1 + ([32] : Bytes).length + (foldNl t).length
            = p + 1 + pre.length + (foldNl (w ++ 10 :: t)).length := by
          rw [hfv, hq]
          simp only [List.length_append, List.length_cons, List.length_nil]
          omega
        rw [harith]
        simp

/-! ## Behaviour of kvlm_parse on serialized field lines -/

/-- Well-formedness of a field key: non-empty, free of the space and
newline delimiters, and made of bytes. -/
def ValidKey (k : Bytes) : Prop :=
  k ≠ [] ∧ (32 : Nat) ∉ k ∧ (10 : Nat) ∉ k ∧ ∀ b ∈ k, b < 256

instance (k : Bytes) : Decidable (ValidKey k) := by
  unfold ValidKey
  infer_instance

/-- Serialized form of one field line, written via foldNl. -/
theorem serializeLine_eq (k v : Bytes) :
    serializeLine k v = k ++ [32] ++ foldNl v ++ [10] := rfl

/-- Folding the line-by-line dict updates of kvlm_parse. -/
def insertLines (d : KvDict) (ls : List (Bytes × Bytes)) : KvDict :=
  ls.foldl (fun d kv => kvlmInsert d kv.1 kv.2) d

/-- Unfolding equation of kvlmParseGo at positive fuel. -/
theorem kvlmParseGo_succ (raw : Bytes) (f start : Nat) (d : KvDict) :
    kvlmParseGo raw (f + 1) start d =
      if bfind raw 32 start < 0 ∨ bfind raw 10 start < bfind raw 32 start then
        if bfind raw 10 start = (start : Int) then .ok ⟨d, raw.drop (start + 1)⟩
        else .error .assertFail
      else
        match kvlmScanEnd raw (raw.length + 2) start with
        | .error e => .error e
        | .ok e =>
          kvlmParseGo raw f (e + 1).toNat
            (kvlmInsert d (pySlice raw start (bfind raw 32 start))
              (breplace [10, 32] [10] (pySlice raw ((bfind raw 32 start) + 1) e))) := rfl

/-- Field branch of kvlmParseGo, with the scan result supplied. -/
theorem kvlmParseGo_field (raw : Bytes) (f start : Nat) (d : KvDict) (e : Int)
    (hcond : ¬ (bfind raw 32 start < 0 ∨ bfind raw 10 start < bfind raw 32 start))
    (hscan : kvlmScanEnd raw (raw.length + 2) start = .ok e) :
    kvlmParseGo raw (f + 1) start d =
      kvlmParseGo raw f (e + 1).toNat
        (kvlmInsert d (pySlice raw start (bfind raw 32 start))
          (breplace [10, 32] [10] (pySlice raw ((bfind raw 32 start) + 1) e))) := by
  rw [kvlmParseGo_succ, if_neg hcond, hscan]

/-- Error propagation out of the scan inside kvlmParseGo. -/
theorem kvlmParseGo_scanErr (raw : Bytes) (f start : Nat) (d : KvDict) (err : PyErr)
    (hcond : ¬ (bfind raw 32 start < 0 ∨ bfind raw 10 start < bfind raw 32 start))
    (hscan : kvlmScanEnd raw (raw.length + 2) start = .error err) :
    kvlmParseGo raw (f + 1) start d = .error err := by
  rw [kvlmParseGo_succ, if_neg hcond, hscan]

/-- Base case of kvlm_parse: the cursor sits on the blank separator
line, so the remainder past it becomes the message. -/
theorem kvlmParseGo_base {raw tail : Bytes} {p f : Nat} (d : KvDict)
    (hdrop : raw.drop p = 10 :: tail) :
    kvlmParseGo raw (f + 1) p d = .ok ⟨d, tail⟩ := by
  have hdrop' : raw.drop p = [10] ++ tail := hdrop
  have hendline : bfind raw 10 p = (p : Int) := by
    have h := @bfind_eq raw 10 p [] tail (by simpa using hdrop) (by simp)
    simpa using h
  have hspace : bfind raw 32 p < 0 ∨ bfind raw 10 p < bfind raw 32 p := by
    rcases bfind_ge (c := 32) hdrop' (by simp) with h | h
    · left; omega
    · right
      rw [hendline]
      simp only [List.length_cons, List.length_nil] at h
      push_cast at h
      omega
  rw [kvlmParseGo_succ, if_pos hspace, if_pos hendline]
  have htail : raw.drop (p + 1) = tail := by
    have h := drop_offset hdrop'
    simpa using h
  rw [htail]

/-- Step case of kvlm_parse: with the cursor at the start of a
serialized field line, either the line is the last bytes of the input
(the scan then raises IndexError), or the parse consumes the line,
records the key/value pair, and moves to the next line. -/
theorem kvlmParseGo_step {raw rest' : Bytes} {k v : Bytes} {p f : Nat} (d : KvDict)
    (hk : ValidKey k)
    (hdrop : raw.drop p = serializeLine k v ++ rest') :
    (rest' = [] → kvlmParseGo raw (f + 1) p d = .error .indexError) ∧
    (∀ b rs, rest' = b :: rs → b ≠ 32 →
      kvlmParseGo raw (f + 1) p d =
        kvlmParseGo raw f (p + (serializeLine k v).length) (kvlmInsert d k v)) := by
  obtain ⟨hknil, hk32, hk10, _⟩ := hk
  obtain ⟨khd, ktl, rfl⟩ : ∃ a t, k = a :: t := by
    cases k with
    | nil => exact absurd rfl hknil
    | cons a t => exact ⟨a, t, rfl⟩
  have hdropA : raw.drop p = (khd :: ktl) ++ 32 :: (foldNl v ++ 10 :: rest') := by
    rw [hdrop, serializeLine_eq]
    simp
  have hdropB : raw.drop p = ((khd :: ktl) ++ [32]) ++ (foldNl v ++ 10 :: rest') := by
    rw [hdropA]
    simp
  -- the length of raw bounds every offset we need
  have hlen : (khd :: ktl).length + 1 + (foldNl v).length + 1 + rest'.length
      = raw.length - p := by
    have h := congrArg List.length hdropB
    simp only [List.length_drop, List.length_append, List.length_cons, List.length_nil] at h
    simp only [List.length_cons]
    omega
  have hple : p + (khd :: ktl).length ≤ raw.length := by
    simp only [List.length_cons] at hlen ⊢
    omega
  -- position of the first space: right after the key
  have hspace : bfind raw 32 p = ((p + (khd :: ktl).length : Nat) : Int) :=
    bfind_eq hdropA hk32
  have hk10' : (10 : Nat) ∉ (khd :: ktl) ++ [32] := by
    intro hmem
    rcases List.mem_append.mp hmem with h | h
    · exact hk10 h
    · simp at h
  -- the first newline comes strictly after the space
  have hnl_ge := bfind_ge (c := 10) (w := (khd :: ktl) ++ [32]) (u := foldNl v ++ 10 :: rest')
    hdropB hk10'
  have hnl_mem : (10 : Nat) ∈ raw.drop p := by
    rw [hdropA]
    simp
  have hnl_nonneg := bfind_nonneg hnl_mem
  have hcond : ¬ (bfind raw 32 p < 0 ∨ bfind raw 10 p < bfind raw 32 p) := by
    rcases hnl_ge with h | h
    · omega
    · rw [hspace]
      simp only [List.length_append, List.length_cons, List.length_nil] at h ⊢
      push_cast at h ⊢
      omega
  -- the captured key is the key
  have hkey : pySlice raw (p : Int) ((p + (khd :: ktl).length : Nat) : Int) = khd :: ktl := by
    rw [pySlice_eq raw p (p + (khd :: ktl).length) (by omega) hple]
    rw [hdropA]
    have : p + (khd :: ktl).length - p = (khd :: ktl).length := by omega
    rw [this, List.take_left]
  -- the scan stops at the newline that ends the line
  have hdropScan : raw.drop (p + 1) = (ktl ++ [32]) ++ foldNl v ++ 10 :: rest' := by
    have h := @drop_offset raw p [khd]
      (ktl ++ 32 :: (foldNl v ++ 10 :: rest')) (by rw [hdropA]; simp)
    simp only [List.length_cons, List.length_nil] at h
    rw [h]
    simp
  have hscanFuel : v.length + 1 ≤ raw.length + 2 := by
    have h1 := length_le_foldNl v
    simp only [List.length_cons] at hlen
    omega
  have hpre10 : (10 : Nat) ∉ ktl ++ [32] := by
    intro hmem
    rcases List.mem_append.mp hmem with h | h
    · exact hk10 (List.mem_cons_of_mem _ h)
    · simp at h
  obtain ⟨hscanNone, hscanSome⟩ := kvlmScanEnd_spec v.length v (le_refl _) raw
    (ktl ++ [32]) rest' p (raw.length + 2) hpre10 hdropScan hscanFuel
  constructor
  · -- the line is the last bytes of raw: IndexError from the scan
    intro hrest
    exact kvlmParseGo_scanErr raw f p d .indexError hcond (hscanNone hrest)
  · -- a following line or the blank separator: the pair is recorded
    intro b rs hrest hb
    rw [kvlmParseGo_field raw f p d _ hcond (hscanSome b rs hrest hb)]
    -- the captured value is the folded value, and unfolding recovers v
    have hvalue : breplace [10, 32] [10]
        (pySlice raw ((bfind raw 32 (p : Int)) + 1)
          ((p + 1 + (ktl ++ [32]).length + (foldNl v).length : Nat) : Int)) = v := by
      have hc1 : ((bfind raw 32 (p : Int)) + 1)
          = ((p + (khd :: ktl).length + 1 : Nat) : Int) := by
        rw [hspace]
        push_cast
        ring
      have hc2 : ((p + 1 + (ktl ++ [32]).length + (foldNl v).length : Nat) : Int)
          = ((p + (khd :: ktl).length + 1 + (foldNl v).length : Nat) : Int) := by
        simp only [List.length_append, List.length_cons, List.length_nil]
        push_cast
        ring_nf
      rw [hc1, hc2]
      have hdropV : raw.drop (p + (khd :: ktl).length + 1) = foldNl v ++ 10 :: rest' := by
        have h := drop_offset hdropB
        have hidx : p + ((khd :: ktl) ++ [32]).length = p + (khd :: ktl).length + 1 := by
          simp
          omega
        rw [hidx] at h
        exact h
      have hble : p + (khd :: ktl).length + 1 + (foldNl v).length ≤ raw.length := by
        simp only [List.length_cons] at hlen ⊢
        omega
      rw [pySlice_eq raw _ _ (by omega) hble]
      have : p + (khd :: ktl).length + 1 + (foldNl v).length
          - (p + (khd :: ktl).length + 1) = (foldNl v).length := by omega
      rw [this, hdropV, List.take_left]
      exact unfoldNl_foldNl v
    rw [hvalue, hspace, hkey]
    have : ((((p + 1 + (ktl ++ [32]).length + (foldNl v).length : Nat) : Int)) + 1).toNat
        = p + (serializeLine (khd :: ktl) v).length := by
      rw [serializeLine_eq]
      simp only [List.length_append, List.length_cons, List.length_nil]
      push_cast
      omega
    rw [this]

/-- Serialized field lines of a cons cell. -/
theorem serializeLines_cons (k v : Bytes) (ls : List (Bytes × Bytes)) :
    serializeLines ((k, v) :: ls) = serializeLine k v ++ serializeLines ls := by
  simp [serializeLines]

/-- A serialized field line starts with the head byte of its key, which
by validity is not a space. -/
theorem serializeLine_head {k : Bytes} (v : Bytes) (hk : ValidKey k) :
    ∃ b rs, serializeLine k v = b :: rs ∧ b ≠ 32 := by
  obtain ⟨hknil, hk32, -, -⟩ := hk
  cases k with
  | nil => exact absurd rfl hknil
  | cons khd ktl =>
    refine ⟨khd, ktl ++ [32] ++ foldNl v ++ [10], ?_, ?_⟩
    · rw [serializeLine_eq]
      simp
    · intro h
      exact hk32 (by rw [h]; exact List.mem_cons_self _ _)

/-- The bytes following one serialized line never start with a space:
either another line starts (with a key byte) or the blank separator
newline comes. -/
theorem lines_rest_head (ls : List (Bytes × Bytes)) (tail : Bytes)
    (hvalid : ∀ kv ∈ ls, ValidKey kv.1) :
    ∃ b rs, serializeLines ls ++ 10 :: tail = b :: rs ∧ b ≠ 32 := by
  cases ls with
  | nil => exact ⟨10, tail, by simp [serializeLines], by omega⟩
  | cons kv ls' =>
    obtain ⟨k, v⟩ := kv
    obtain ⟨b, rs, hline, hb⟩ := serializeLine_head v (hvalid (k, v) (List.mem_cons_self _ _))
    refine ⟨b, rs ++ (serializeLines ls' ++ 10 :: tail), ?_, hb⟩
    rw [serializeLines_cons, hline]
    simp

/-- Each serialized line is at least one byte, so the number of lines is
dominated by the byte length of the serialization. -/
theorem length_le_serializeLines (ls : List (Bytes × Bytes)) :
    ls.length ≤ (serializeLines ls).length := by
  induction ls with
  | nil => simp [serializeLines]
  | cons kv ls ih =>
    obtain ⟨k, v⟩ := kv
    rw [serializeLines_cons]
    rw [serializeLine_eq]
    simp only [List.length_append, List.length_cons]
    omega

/-- Main parse lemma: from a cursor at the start of the serialized field
lines, kvlm_parse records every line in order into the dict and stores
the bytes after the blank separator line as the message. -/
theorem kvlmParseGo_lines :
    ∀ (ls : List (Bytes × Bytes)) (d : KvDict) (p : Nat) (raw tail : Bytes) (fuel : Nat),
    (∀ kv ∈ ls, ValidKey kv.1) →
    raw.drop p = serializeLines ls ++ 10 :: tail →
    ls.length + 1 ≤ fuel →
    kvlmParseGo raw fuel p d = .ok ⟨insertLines d ls, tail⟩ := by
  intro ls
  induction ls with
  | nil =>
    intro d p raw tail fuel _ hdrop hfuel
    obtain ⟨f, rfl⟩ : ∃ f, fuel = f + 1 := ⟨fuel - 1, by omega⟩
    simp only [serializeLines, List.map_nil, List.flatten_nil, List.nil_append] at hdrop
    exact kvlmParseGo_base d hdrop
  | cons kv ls ih =>
    intro d p raw tail fuel hvalid hdrop hfuel
    obtain ⟨f, rfl⟩ : ∃ f, fuel = f + 1 := ⟨fuel - 1, by omega⟩
    obtain ⟨k, v⟩ := kv
    have hk : ValidKey k := (hvalid (k, v) (List.mem_cons_self _ _))
    have hvalid' : ∀ kv ∈ ls, ValidKey kv.1 :=
      fun kv hm => hvalid kv (List.mem_cons_of_mem _ hm)
    have hdrop' : raw.drop p = serializeLine k v ++ (serializeLines ls ++ 10 :: tail) := by
      rw [hdrop, serializeLines_cons]
      simp
    obtain ⟨-, hsome⟩ := kvlmParseGo_step d hk hdrop'
    obtain ⟨b, rs, hbrs, hb⟩ := lines_rest_head ls tail hvalid'
    rw [hsome b rs hbrs hb]
    have hdrop'' : raw.drop (p + (serializeLine k v).length)
        = serializeLines ls ++ 10 :: tail := drop_offset hdrop'
    have hfl : ls.length + 1 ≤ f := by
      simp only [List.length_cons] at hfuel
      omega
    rw [ih (kvlmInsert d k v) (p + (serializeLine k v).length) raw tail f hvalid' hdrop'' hfl]
    rfl

/-- Truncated-input lemma: when the field lines are the whole input (no
blank separator line and no message follow), the continuation scan of
the last line reads one byte past the end and IndexError is raised. -/
theorem kvlmParseGo_lines_noMsg :
    ∀ (ls : List (Bytes × Bytes)) (d : KvDict) (p : Nat) (raw : Bytes) (fuel : Nat),
    ls ≠ [] →
    (∀ kv ∈ ls, ValidKey kv.1) →
    raw.drop p = serializeLines ls →
    ls.length + 1 ≤ fuel →
    kvlmParseGo raw fuel p d = .error .indexError := by
  intro ls
  induction ls with
  | nil => intro _ _ _ _ hne; exact absurd rfl hne
  | cons kv ls ih =>
    intro d p raw fuel _ hvalid hdrop hfuel
    obtain ⟨f, rfl⟩ : ∃ f, fuel = f + 1 := ⟨fuel - 1, by omega⟩
    obtain ⟨k, v⟩ := kv
    have hk : ValidKey k := (hvalid (k, v) (List.mem_cons_self _ _))
    have hvalid' : ∀ kv ∈ ls, ValidKey kv.1 :=
      fun kv hm => hvalid kv (List.mem_cons_of_mem _ hm)
    have hdrop' : raw.drop p = serializeLine k v ++ serializeLines ls := by
      rw [hdrop, serializeLines_cons]
    obtain ⟨hnone, hsome⟩ := kvlmParseGo_step d hk hdrop'
    cases ls with
    | nil =>
      exact hnone (by simp [serializeLines])
    | cons kv' ls' =>
      obtain ⟨k', v'⟩ := kv'
      obtain ⟨b, rs, hline, hb⟩ :=
        serializeLine_head v' (hvalid' (k', v') (List.mem_cons_self _ _))
      have hbrs : serializeLines ((k', v') :: ls') = b :: rs ++ serializeLines ls' := by
        rw [serializeLines_cons, hline]
      rw [hsome b (rs ++ serializeLines ls') hbrs hb]
      have hdrop'' : raw.drop (p + (serializeLine k v).length)
          = serializeLines ((k', v') :: ls') := drop_offset hdrop'
      exact ih (kvlmInsert d k v) _ raw f (by simp) hvalid' hdrop''
        (by simp only [List.length_cons] at hfuel ⊢; omega)

/-- Top-level parse of a well-formed serialization: the field lines are
recorded in order and the message is everything after the blank line. -/
theorem kvlm_parse_lines (ls : List (Bytes × Bytes)) (msg : Bytes)
    (hvalid : ∀ kv ∈ ls, ValidKey kv.1) :
    kvlm_parse (serializeLines ls ++ 10 :: msg) = .ok ⟨insertLines [] ls, msg⟩ := by
  apply kvlmParseGo_lines ls [] 0 _ msg _ hvalid (by rw [List.drop_zero])
  have h1 := length_le_serializeLines ls
  simp only [List.length_append, List.length_cons]
  omega

/-- Top-level parse of a truncated serialization (field lines only). -/
theorem kvlm_parse_lines_noMsg (ls : List (Bytes × Bytes))
    (hne : ls ≠ []) (hvalid : ∀ kv ∈ ls, ValidKey kv.1) :
    kvlm_parse (serializeLines ls) = .error .indexError := by
  apply kvlmParseGo_lines_noMsg ls [] 0 _ _ hne hvalid (by rw [List.drop_zero])
  have h1 := length_le_serializeLines ls
  omega

/-! ## Regrouping: the dict built line by line equals the field list -/

/-- Well-formedness of one field value: a Python list value only arises
from a repeated key, so it holds at least two entries; all values are
byte strings. -/
def ValidVal : KvVal → Prop
  | .single v => ∀ b ∈ v, b < 256
  | .multi vs => 2 ≤ vs.length ∧ ∀ v ∈ vs, ∀ b ∈ v, b < 256

instance (val : KvVal) : Decidable (ValidVal val) := by
  cases val <;> (unfold ValidVal; infer_instance)

/-- Well-formedness of a KVLM field list: pairwise distinct valid keys
and valid values. -/
def ValidFields (fs : List (Bytes × KvVal)) : Prop :=
  (fs.map Prod.fst).Nodup ∧ ∀ kv ∈ fs, ValidKey kv.1 ∧ ValidVal kv.2

instance (fs : List (Bytes × KvVal)) : Decidable (ValidFields fs) := by
  unfold ValidFields
  infer_instance

/-- Well-formedness of a KVLM document. -/
def ValidKVLM (D : KVLM) : Prop :=
  ValidFields D.fields ∧ ∀ b ∈ D.message, b < 256

instance (D : KVLM) : Decidable (ValidKVLM D) := by
  unfold ValidKVLM
  infer_instance

/-- Inserting a fresh key appends it at the end of the dict. -/
theorem kvlmInsert_notMem (d : KvDict) (k v : Bytes) (hk : k ∉ d.map Prod.fst) :
    kvlmInsert d k v = d ++ [(k, .single v)] := by
  induction d with
  | nil => rfl
  | cons kv d ih =>
    obtain ⟨k₀, val₀⟩ := kv
    simp only [List.map_cons, List.mem_cons] at hk
    simp only [kvlmInsert]
    rw [if_neg (by tauto)]
    rw [ih (by tauto)]
    rfl

/-- Re-inserting the key of the last entry promotes it to a list. -/
theorem kvlmInsert_last_single (d : KvDict) (k v₀ v : Bytes) (hk : k ∉ d.map Prod.fst) :
    kvlmInsert (d ++ [(k, .single v₀)]) k v = d ++ [(k, .multi [v₀, v])] := by
  induction d with
  | nil => simp [kvlmInsert]
  | cons kv d ih =>
    obtain ⟨k₀, val₀⟩ := kv
    simp only [List.map_cons, List.mem_cons] at hk
    simp only [List.cons_append, kvlmInsert]
    rw [if_neg (by tauto)]
    simp only [List.append_eq]
    rw [ih (by tauto)]

/-- Re-inserting the key of a last list entry appends to its list. -/
theorem kvlmInsert_last_multi (d : KvDict) (k : Bytes) (vs : List Bytes) (v : Bytes)
    (hk : k ∉ d.map Prod.fst) :
    kvlmInsert (d ++ [(k, .multi vs)]) k v = d ++ [(k, .multi (vs ++ [v]))] := by
  induction d with
  | nil => simp [kvlmInsert]
  | cons kv d ih =>
    obtain ⟨k₀, val₀⟩ := kv
    simp only [List.map_cons, List.mem_cons] at hk
    simp only [List.cons_append, kvlmInsert]
    rw [if_neg (by tauto)]
    simp only [List.append_eq]
    rw [ih (by tauto)]

/-- Processing the remaining lines of a repeated key extends its list. -/
theorem insertLines_multi (d : KvDict) (k : Bytes) (vs more : List Bytes)
    (hk : k ∉ d.map Prod.fst) :
    insertLines (d ++ [(k, .multi vs)]) (more.map fun v => (k, v))
      = d ++ [(k, .multi (vs ++ more))] := by
  induction more generalizing vs with
  | nil => simp [insertLines]
  | cons v more ih =>
    simp only [List.map_cons, insertLines, List.foldl_cons]
    have h := kvlmInsert_last_multi d k vs v hk
    show insertLines (kvlmInsert (d ++ [(k, .multi vs)]) k v) (more.map fun v => (k, v)) = _
    rw [h, ih (vs ++ [v])]
    simp

/-- Processing all lines of one field appends exactly that field. -/
theorem insertLines_field (d : KvDict) (k : Bytes) (val : KvVal)
    (hk : k ∉ d.map Prod.fst) (hval : ValidVal val) :
    insertLines d ((kvValList val).map fun v => (k, v)) = d ++ [(k, val)] := by
  cases val with
  | single v =>
    simp only [kvValList, List.map_cons, List.map_nil, insertLines, List.foldl_cons,
      List.foldl_nil]
    exact kvlmInsert_notMem d k v hk
  | multi vs =>
    obtain ⟨v₁, v₂, vs', rfl⟩ : ∃ v₁ v₂ vs', vs = v₁ :: v₂ :: vs' := by
      obtain ⟨hlen, -⟩ := hval
      cases vs with
      | nil => simp at hlen
      | cons v₁ t =>
        cases t with
        | nil => simp at hlen
        | cons v₂ vs' => exact ⟨v₁, v₂, vs', rfl⟩
    simp only [kvValList, List.map_cons, insertLines, List.foldl_cons]
    show insertLines (kvlmInsert (kvlmInsert d k v₁) k v₂) (vs'.map fun v => (k, v)) = _
    rw [kvlmInsert_notMem d k v₁ hk, kvlmInsert_last_single d k v₁ v₂ hk]
    exact insertLines_multi d k [v₁, v₂] vs' hk

/-- insertLines distributes over concatenation of line lists. -/
theorem insertLines_append (d : KvDict) (l₁ l₂ : List (Bytes × Bytes)) :
    insertLines d (l₁ ++ l₂) = insertLines (insertLines d l₁) l₂ :=
  List.foldl_append _ _ _ _

/-- Lines of a cons field list. -/
theorem linesOf_cons (k : Bytes) (val : KvVal) (fs : List (Bytes × KvVal)) :
    linesOf ((k, val) :: fs) = ((kvValList val).map fun v => (k, v)) ++ linesOf fs := by
  simp [linesOf]

/-- Rebuilding a valid field list from its lines reproduces it exactly:
the dict the parser accumulates is the original ordered field list. -/
theorem insertLines_linesOf :
    ∀ (fs : List (Bytes × KvVal)) (d : KvDict),
    (fs.map Prod.fst).Nodup →
    (∀ kv ∈ fs, ValidVal kv.2) →
    (∀ k ∈ fs.map Prod.fst, k ∉ d.map Prod.fst) →
    insertLines d (linesOf fs) = d ++ fs := by
  intro fs
  induction fs with
  | nil => intro d _ _ _; simp [linesOf, insertLines]
  | cons kv fs ih =>
    intro d hnodup hval hdisj
    obtain ⟨k, val⟩ := kv
    rw [linesOf_cons, insertLines_append]
    rw [insertLines_field d k val (hdisj k (by simp)) (hval (k, val) (by simp))]
    rw [ih (d ++ [(k, val)]) (by simp at hnodup; tauto)
      (fun kv hm => hval kv (List.mem_cons_of_mem _ hm)) ?_]
    · simp
    · intro k' hk' hmem
      simp only [List.map_append, List.mem_append, List.map_cons, List.map_nil,
        List.mem_singleton] at hmem
      rcases hmem with h | h
      · exact hdisj k' (List.mem_cons_of_mem _ hk') h
      · simp only [List.map_cons, List.nodup_cons] at hnodup
        rw [h] at hk'
        exact hnodup.1 hk'

/-- The key of every line of a valid field list is valid. -/
theorem linesOf_validKeys (fs : List (Bytes × KvVal))
    (h : ∀ kv ∈ fs, ValidKey kv.1 ∧ ValidVal kv.2) :
    ∀ kv ∈ linesOf fs, ValidKey kv.1 := by
  intro kv hm
  simp only [linesOf, List.mem_flatMap, List.mem_map] at hm
  obtain ⟨kv₀, hkv₀, v, hv, rfl⟩ := hm
  exact (h kv₀ hkv₀).1

/-! ## Claims C3, C4 and C10: the KVLM round-trip laws -/

/-- Parse of a well-formed serialization, fields regrouped. -/
theorem kvlm_parse_serialize_eq (fs : List (Bytes × KvVal)) (msg : Bytes)
    (hnodup : (fs.map Prod.fst).Nodup)
    (hkv : ∀ kv ∈ fs, ValidKey kv.1 ∧ ValidVal kv.2) :
    kvlm_parse (serializeLines (linesOf fs) ++ 10 :: msg) = .ok ⟨fs, msg⟩ := by
  rw [kvlm_parse_lines _ _ (linesOf_validKeys _ hkv)]
  rw [insertLines_linesOf fs [] hnodup (fun kv hm => (hkv kv hm).2) (by simp)]
  rfl

/-- C3, counterexample to the claim as stated: for this valid document D
the parse of its serialization is not D — the message grows a newline. -/
theorem c3_roundtrip_counterexample :
    ValidKVLM ⟨[(bs "tree", .single (bs "abc"))], bs "msg"⟩ ∧
    kvlm_parse (kvlm_serialize ⟨[(bs "tree", .single (bs "abc"))], bs "msg"⟩)
      ≠ .ok ⟨[(bs "tree", .single (bs "abc"))], bs "msg"⟩ := by
  decide

/-- C3 (amended): for every valid KVLM document D, parsing the
serialization of D preserves the ordered fields (multi-valued fields
included) exactly, but returns the message with one newline byte
appended: parse (serialize D) = (D.fields, D.message ++ b"\n").
The serializer writes the message followed by a trailing newline while
the parser takes everything after the blank line, so the trailing
newline becomes part of the parsed message. -/
theorem c3_parse_of_serialize (D : KVLM) (h : ValidKVLM D) :
    kvlm_parse (kvlm_serialize D) = .ok ⟨D.fields, D.message ++ [10]⟩ := by
  obtain ⟨⟨hnodup, hkv⟩, -⟩ := h
  have heq : kvlm_serialize D
      = serializeLines (linesOf D.fields) ++ 10 :: (D.message ++ [10]) := by
    simp [kvlm_serialize]
  rw [heq, kvlm_parse_serialize_eq D.fields _ hnodup hkv]

/-- Witness for C3 at a concrete document with a repeated key. -/
theorem c3_parse_of_serialize_witness :
    ValidKVLM ⟨[(bs "tree", .single (bs "abc")),
                (bs "parent", .multi [bs "p1", bs "p2"])], bs "msg"⟩ ∧
    kvlm_parse (kvlm_serialize ⟨[(bs "tree", .single (bs "abc")),
                (bs "parent", .multi [bs "p1", bs "p2"])], bs "msg"⟩)
      = .ok ⟨[(bs "tree", .single (bs "abc")),
              (bs "parent", .multi [bs "p1", bs "p2"])], bs "msg" ++ [10]⟩ :=
  ⟨by decide, c3_parse_of_serialize _ (by decide)⟩

/-- C4, counterexample to the claim as stated: for this well-formed
input x (one field line, a blank line, a message), serializing the
parse of x is not x. -/
theorem c4_roundtrip_counterexample :
    (kvlm_parse (serializeLines (linesOf [(bs "tree", KvVal.single (bs "abc"))])
        ++ 10 :: bs "msg")).map kvlm_serialize
      ≠ .ok (serializeLines (linesOf [(bs "tree", KvVal.single (bs "abc"))])
        ++ 10 :: bs "msg") := by
  decide

/-- C4 (amended): for every well-formed KVLM byte string x — the
serialized field lines of a field list with distinct valid keys and
grouped repeated values, then a blank separator line, then the message —
serializing the parse of x reproduces x with exactly one extra newline
byte at the end: serialize (parse x) = x ++ b"\n". -/
theorem c4_serialize_of_parse (fs : List (Bytes × KvVal)) (msg : Bytes)
    (h : ValidFields fs) :
    (kvlm_parse (serializeLines (linesOf fs) ++ 10 :: msg)).map kvlm_serialize
      = .ok ((serializeLines (linesOf fs) ++ 10 :: msg) ++ [10]) := by
  obtain ⟨hnodup, hkv⟩ := h
  rw [kvlm_parse_serialize_eq fs msg hnodup hkv]
  show Except.ok (kvlm_serialize ⟨fs, msg⟩) = _
  simp [kvlm_serialize]

/-- Witness for C4 at a concrete well-formed input. -/
theorem c4_serialize_of_parse_witness :
    ValidFields [(bs "tree", KvVal.single (bs "abc")),
                 (bs "parent", KvVal.multi [bs "p1", bs "p2"])] ∧
    (kvlm_parse (serializeLines (linesOf [(bs "tree", KvVal.single (bs "abc")),
        (bs "parent", KvVal.multi [bs "p1", bs "p2"])]) ++ 10 :: bs "msg")).map kvlm_serialize
      = .ok ((serializeLines (linesOf [(bs "tree", KvVal.single (bs "abc")),
        (bs "parent", KvVal.multi [bs "p1", bs "p2"])]) ++ 10 :: bs "msg") ++ [10]) :=
  ⟨by decide, c4_serialize_of_parse _ _ (by decide)⟩

/-- C10: the continuation-line scan always reads the byte after each
newline it finds (raw[end + 1] in the source), so on any input made of
serialized field lines whose final byte is the last line's terminating
newline — no blank separator line and no message follow — kvlm_parse
raises IndexError (an out-of-range index access), not a malformed-input
assertion failure. -/
theorem c10_truncated_fields_indexError (ls : List (Bytes × Bytes))
    (hne : ls ≠ []) (hvalid : ∀ kv ∈ ls, ValidKey kv.1) :
    kvlm_parse (serializeLines ls) = .error .indexError :=
  kvlm_parse_lines_noMsg ls hne hvalid

/-- Witness for C10 at the one-line input b"k v\n". -/
theorem c10_truncated_fields_indexError_witness :
    kvlm_parse (serializeLines [(bs "k", bs "v")]) = .error .indexError :=
  c10_truncated_fields_indexError [(bs "k", bs "v")] (by decide) (by decide)

/-! ## The object store: framing, reading, dispatch (object_read lines
225-264, object_write lines 267-283, and the GitObject classes)

A crucial point of fidelity: in the source, GitBlob and GitCommit each
define serialize twice inside the class body; the second def shadows the
first, so neither class ends up defining deserialize, and
GitObject.__init__ calls the inherited GitObject.deserialize, which
raises Exception("Unimplemented!").  GitTree and GitTag are referenced
by object_read and object_hash but never defined anywhere in the file,
so evaluating those names raises NameError. -/

/-- Sequencing of fallible steps: an exception raised by the first step
propagates, otherwise the next statement runs. -/
def pyBind {α β : Type} : Except PyErr α → (α → Except PyErr β) → Except PyErr β
  | .error e, _ => .error e
  | .ok a, f => f a

@[simp] theorem pyBind_ok {α β : Type} (a : α) (f : α → Except PyErr β) :
    pyBind (.ok a) f = f a := rfl

@[simp] theorem pyBind_error {α β : Type} (e : PyErr) (f : α → Except PyErr β) :
    pyBind (.error e) f = .error e := rfl

/-- The framed byte string built by object_write (line 271):
obj.object_type + b" " + str(len(data)).encode() + b"\x00" + data. -/
def objectFrame (object_type data : Bytes) : Bytes :=
  object_type ++ [32] ++ natDecDigits data.length ++ [0] ++ data

/-- Model of the dispatch c(raw[y+1:]) of object_read (lines 247-264).
The payload argument mirrors the slice handed to the constructor; with
the class semantics of this source no constructor ever completes, so the
result is always an error: Unimplemented for commit and blob (shadowed
serialize, missing deserialize), NameError for tree and tag (classes
never defined), unknown-type otherwise. -/
def objectDispatch (object_type _data : Bytes) : Except PyErr Empty :=
  if object_type = bs "commit" then .error .unimplemented
  else if object_type = bs "tree" then .error .nameError
  else if object_type = bs "tag" then .error .nameError
  else if object_type = bs "blob" then .error .unimplemented
  else .error .unknownType

/-- Model of object_read from the decompressed bytes on (lines 236-264):
find the first space (end of the type token), find the first null byte
after it, parse the decimal size from the slice between them (the slice
starts at the space, which int() strips), check the declared size
against the remaining byte count, and dispatch on the type token. -/
def objectReadRaw (raw : Bytes) : Except PyErr Empty :=
  let x := bfind raw 32 0
  let object_type := pySlice raw 0 x
  let y := bfind raw 0 x
  pyBind (pyDecodeAscii (pySlice raw x y)) fun sizeBytes =>
    pyBind (pyInt sizeBytes) fun size =>
      if size ≠ (raw.length : Int) - y - 1 then .error .malformed
      else objectDispatch object_type (pySlice raw (y + 1) (raw.length : Int))

/-! ### Decimal digit lemmas for the declared-length field -/

theorem natDecDigits_digits : ∀ m n, n ≤ m → ∀ b ∈ natDecDigits n, 48 ≤ b ∧ b ≤ 57 := by
  intro m
  induction m with
  | zero =>
    intro n hn b hb
    have : n = 0 := by omega
    subst this
    have h48 : natDecDigits 0 = [48] := rfl
    rw [h48] at hb
    simp at hb
    omega
  | succ m ih =>
    intro n hn b hb
    rw [natDecDigits_eq] at hb
    by_cases h10 : n < 10
    · rw [if_pos h10] at hb
      simp at hb
      omega
    · rw [if_neg h10] at hb
      rcases List.mem_append.mp hb with h | h
      · exact ih (n / 10) (by omega) b h
      · simp at h
        have := Nat.mod_lt n (show 0 < 10 by omega)
        omega

theorem natDecDigits_ne_nil (n : Nat) : natDecDigits n ≠ [] := by
  rw [natDecDigits_eq]
  by_cases h : n < 10
  · simp [h]
  · simp [h]

/-- Value of the digit fold on an all-digit run. -/
def decVal (acc : Nat) (ds : Bytes) : Nat :=
  ds.foldl (fun a b => a * 10 + (b - 48)) acc

theorem digitsFold_one (acc b : Nat) :
    digitsFold acc [b] = if isDigitByte b then some (acc * 10 + (b - 48)) else none := rfl

theorem digitsFold_two (acc b c : Nat) (t : Bytes) :
    digitsFold acc (b :: c :: t) =
      if isDigitByte b then digitsFold (acc * 10 + (b - 48)) (c :: t)
      else if b = 95 ∧ isDigitByte c then digitsFold (acc * 10 + (c - 48)) t
      else none := rfl

theorem digitsFold_eq_decVal :
    ∀ (ds : Bytes) (acc : Nat), (∀ b ∈ ds, isDigitByte b) →
    digitsFold acc ds = some (decVal acc ds) := by
  intro ds
  induction ds with
  | nil => intro acc _; rfl
  | cons b t ih =>
    intro acc hds
    have hb : isDigitByte b := hds b (List.mem_cons_self _ _)
    cases t with
    | nil =>
      rw [digitsFold_one, if_pos hb]
      rfl
    | cons c t' =>
      rw [digitsFold_two, if_pos hb]
      rw [ih _ (fun e he => hds e (List.mem_cons_of_mem _ he))]
      rfl

theorem decVal_append (acc : Nat) (A B : Bytes) :
    decVal acc (A ++ B) = decVal (decVal acc A) B :=
  List.foldl_append _ _ _ _

/-- The decimal rendering evaluates back to the number it came from. -/
theorem decVal_natDecDigits :
    ∀ m n acc, n ≤ m →
    decVal acc (natDecDigits n) = acc * 10 ^ (natDecDigits n).length + n := by
  intro m
  induction m with
  | zero =>
    intro n acc hn
    have : n = 0 := by omega
    subst this
    simp [natDecDigits, natDecDigitsGo, decVal]
  | succ m ih =>
    intro n acc hn
    rw [natDecDigits_eq]
    by_cases h10 : n < 10
    · rw [if_pos h10]
      simp only [decVal, List.foldl_cons, List.foldl_nil, List.length_cons,
        List.length_nil, pow_one]
      omega
    · rw [if_neg h10]
      rw [decVal_append]
      rw [ih (n / 10) acc (by omega)]
      simp only [decVal, List.foldl_cons, List.foldl_nil, List.length_append,
        List.length_cons, List.length_nil]
      have h48 : 48 + n % 10 - 48 = n % 10 := by omega
      rw [h48, pow_succ]
      have hmod : n / 10 * 10 + n % 10 = n := by omega
      calc (acc * 10 ^ (natDecDigits (n / 10)).length + n / 10) * 10 + n % 10
          = acc * (10 ^ (natDecDigits (n / 10)).length * 10)
            + (n / 10 * 10 + n % 10) := by ring
        _ = acc * (10 ^ (natDecDigits (n / 10)).length * 10) + n := by rw [hmod]

theorem pyDigitsVal_natDecDigits (n : Nat) : pyDigitsVal (natDecDigits n) = some n := by
  obtain ⟨d, rest, hd⟩ : ∃ d rest, natDecDigits n = d :: rest := by
    cases h : natDecDigits n with
    | nil => exact absurd h (natDecDigits_ne_nil n)
    | cons d rest => exact ⟨d, rest, rfl⟩
  have hdig : ∀ b ∈ natDecDigits n, 48 ≤ b ∧ b ≤ 57 := natDecDigits_digits n n (le_refl _)
  have hall : ∀ b ∈ natDecDigits n, isDigitByte b := by
    intro b hb
    have := hdig b hb
    simp only [isDigitByte, Bool.and_eq_true, decide_eq_true_eq]
    omega
  rw [hd] at hall hdig ⊢
  simp only [pyDigitsVal]
  rw [if_pos (hall d (List.mem_cons_self _ _))]
  rw [digitsFold_eq_decVal rest (d - 48) (fun c hc => hall c (List.mem_cons_of_mem _ hc))]
  have h0 : decVal (d - 48) rest = decVal 0 (d :: rest) := by
    simp [decVal]
  rw [h0, ← hd, decVal_natDecDigits n n 0 (le_refl _)]
  simp

/-- The declared-size slice b" " + digits parses back to the size. -/
theorem pyInt_space_digits (n : Nat) : pyInt (32 :: natDecDigits n) = .ok (n : Int) := by
  have hdig : ∀ b ∈ natDecDigits n, 48 ≤ b ∧ b ≤ 57 := natDecDigits_digits n n (le_refl _)
  have hnows : ∀ b ∈ natDecDigits n, isPyWs b = false := by
    intro b hb
    have := hdig b hb
    simp only [isPyWs]
    simp only [Bool.or_eq_false_iff, decide_eq_false_iff_not]
    omega
  have hdw : (32 :: natDecDigits n).dropWhile isPyWs = natDecDigits n := by
    rw [List.dropWhile_cons]
    rw [if_pos (by simp [isPyWs])]
    cases h : natDecDigits n with
    | nil => exact absurd h (natDecDigits_ne_nil n)
    | cons d rest =>
      rw [List.dropWhile_cons]
      rw [if_neg ?_]
      have := hnows d (by rw [h]; exact List.mem_cons_self _ _)
      simp [this]
  have hrev : ((natDecDigits n).reverse.dropWhile isPyWs).reverse = natDecDigits n := by
    cases h : (natDecDigits n).reverse with
    | nil =>
      have := congrArg List.reverse h
      simp at this
      exact absurd this (natDecDigits_ne_nil n)
    | cons d rest =>
      rw [List.dropWhile_cons]
      rw [if_neg ?_]
      · rw [← h]
        simp
      · have hdmem : d ∈ natDecDigits n := by
          have : d ∈ (natDecDigits n).reverse := by rw [h]; exact List.mem_cons_self _ _
          simpa using this
        have := hnows d hdmem
        simp [this]
  show pyIntCore (((32 :: natDecDigits n).dropWhile isPyWs).reverse.dropWhile isPyWs).reverse
      = .ok (n : Int)
  rw [hdw, hrev]
  obtain ⟨d, rest, hd⟩ : ∃ d rest, natDecDigits n = d :: rest := by
    cases h : natDecDigits n with
    | nil => exact absurd h (natDecDigits_ne_nil n)
    | cons d rest => exact ⟨d, rest, rfl⟩
  rw [hd]
  have hdrange := hdig d (by rw [hd]; exact List.mem_cons_self _ _)
  simp only [pyIntCore]
  rw [if_neg (by omega), if_neg (by omega)]
  have := pyDigitsVal_natDecDigits n
  rw [hd] at this
  rw [this]

/-! ## Claims C7 and C2: reading framed objects -/

/-- The dispatch never raises the malformed-length error: its failures
are Unimplemented, NameError or the unknown-type error. -/
theorem objectDispatch_ne_malformed (ty data : Bytes) :
    objectDispatch ty data ≠ .error .malformed := by
  unfold objectDispatch
  split_ifs <;> simp

/-- Evaluation of objectReadRaw on a well-framed input whose type token
contains no space byte: the declared size n is compared with the actual
payload length, and the malformed-length error is raised exactly when
they differ. -/
theorem objectReadRaw_framed (t : Bytes) (n : Nat) (payload : Bytes)
    (ht32 : (32 : Nat) ∉ t) :
    objectReadRaw (t ++ [32] ++ natDecDigits n ++ [0] ++ payload)
      = if n = payload.length then
          objectDispatch t (pySlice (t ++ [32] ++ natDecDigits n ++ [0] ++ payload)
            (((t.length + 1 + (natDecDigits n).length : Nat) : Int) + 1)
            (((t ++ [32] ++ natDecDigits n ++ [0] ++ payload).length : Nat) : Int))
        else .error .malformed := by
  set raw : Bytes := t ++ [32] ++ natDecDigits n ++ [0] ++ payload with hraw
  have hdig : ∀ b ∈ natDecDigits n, 48 ≤ b ∧ b ≤ 57 := natDecDigits_digits n n (le_refl _)
  have hdrop0 : raw.drop 0 = t ++ 32 :: (natDecDigits n ++ 0 :: payload) := by
    rw [List.drop_zero, hraw]
    simp
  -- the first space ends the type token
  have hx : bfind raw 32 0 = ((0 + t.length : Nat) : Int) := bfind_eq (p := 0) hdrop0 ht32
  have hx' : bfind raw 32 0 = ((t.length : Nat) : Int) := by
    rw [hx]
    norm_num
  -- the type token slice
  have hlenraw : raw.length = t.length + 1 + (natDecDigits n).length + 1 + payload.length := by
    rw [hraw]
    simp only [List.length_append, List.length_cons, List.length_nil]
  have htype : pySlice raw (0 : Int) ((t.length : Nat) : Int) = t := by
    have h := pySlice_eq raw 0 t.length (by omega) (by omega)
    rw [Nat.cast_zero] at h
    rw [h, List.drop_zero, hraw]
    have hg : t ++ [32] ++ natDecDigits n ++ [0] ++ payload
        = t ++ ([32] ++ natDecDigits n ++ [0] ++ payload) := by simp
    rw [hg]
    have h2 : t.length - 0 = t.length := by omega
    rw [h2, List.take_left]
  -- the first null byte ends the size field
  have hdropT : raw.drop t.length = 32 :: (natDecDigits n ++ 0 :: payload) := by
    have h := drop_offset (p := 0) hdrop0
    simpa using h
  have hdropT' : raw.drop t.length = (32 :: natDecDigits n) ++ 0 :: payload := by
    rw [hdropT]
    simp
  have hy : bfind raw 0 ((t.length : Nat) : Int)
      = ((t.length + (32 :: natDecDigits n).length : Nat) : Int) := by
    refine bfind_eq hdropT' ?_
    intro hmem
    simp only [List.mem_cons] at hmem
    rcases hmem with h | h
    · omega
    · have := hdig 0 h
      omega
  have hy' : bfind raw 0 ((t.length : Nat) : Int)
      = ((t.length + 1 + (natDecDigits n).length : Nat) : Int) := by
    rw [hy]
    simp only [List.length_cons]
    congr 1
    omega
  -- the size slice is the space followed by the digits
  have hsz : pySlice raw ((t.length : Nat) : Int)
      ((t.length + 1 + (natDecDigits n).length : Nat) : Int) = 32 :: natDecDigits n := by
    rw [pySlice_eq raw _ _ (by omega) (by omega)]
    rw [hdropT']
    have h2 : t.length + 1 + (natDecDigits n).length - t.length
        = (32 :: natDecDigits n).length := by
      simp only [List.length_cons]
      omega
    rw [h2, List.take_left]
  -- the ascii decode of the size slice succeeds
  have hdec : pyDecodeAscii (32 :: natDecDigits n) = .ok (32 :: natDecDigits n) := by
    unfold pyDecodeAscii
    rw [if_pos]
    simp only [List.all_cons, Bool.and_eq_true, decide_eq_true_eq]
    refine ⟨by omega, ?_⟩
    rw [List.all_eq_true]
    intro b hb
    have := hdig b hb
    simp only [decide_eq_true_eq]
    omega
  show pyBind (pyDecodeAscii
      (pySlice raw (bfind raw 32 0) (bfind raw 0 (bfind raw 32 0)))) (fun sizeBytes =>
    pyBind (pyInt sizeBytes) fun size =>
      if size ≠ (raw.length : Int) - (bfind raw 0 (bfind raw 32 0)) - 1
      then Except.error PyErr.malformed
      else objectDispatch (pySlice raw 0 (bfind raw 32 0))
        (pySlice raw ((bfind raw 0 (bfind raw 32 0)) + 1) (raw.length : Int))) = _
  rw [hx', hy', hsz, hdec]
  simp only [pyBind_ok, pyInt_space_digits n, htype]
  have hcount : (raw.length : Int) - ((t.length + 1 + (natDecDigits n).length : Nat) : Int) - 1
      = (payload.length : Int) := by
    rw [hlenraw]
    push_cast
    ring
  rw [hcount]
  by_cases hn : n = payload.length
  · rw [if_pos hn]
    rw [if_neg (by rw [hn]; simp)]
  · rw [if_neg hn]
    rw [if_pos (by simp; omega)]

/-- C7: for a stored object whose decompressed bytes are framed as
type-token, space, decimal declared length, null byte, payload (the
type token free of space bytes), object_read raises the fatal
malformed-object error exactly when the declared length differs from
the actual payload byte count; when they agree that error is not
raised. -/
theorem c7_length_mismatch (t : Bytes) (n : Nat) (payload : Bytes)
    (ht32 : (32 : Nat) ∉ t) :
    (n ≠ payload.length →
      objectReadRaw (t ++ [32] ++ natDecDigits n ++ [0] ++ payload) = .error .malformed) ∧
    (n = payload.length →
      objectReadRaw (t ++ [32] ++ natDecDigits n ++ [0] ++ payload) ≠ .error .malformed) := by
  constructor
  · intro hn
    rw [objectReadRaw_framed t n payload ht32, if_neg hn]
  · intro hn
    rw [objectReadRaw_framed t n payload ht32, if_pos hn]
    exact objectDispatch_ne_malformed _ _

/-- Witness for C7: a blob frame declaring 7 bytes over a 5-byte payload
is malformed; the same frame declaring 5 bytes is not. -/
theorem c7_length_mismatch_witness :
    ((32 : Nat) ∉ bs "blob") ∧
    objectReadRaw (bs "blob" ++ [32] ++ natDecDigits 7 ++ [0] ++ bs "hello")
      = .error .malformed ∧
    objectReadRaw (bs "blob" ++ [32] ++ natDecDigits 5 ++ [0] ++ bs "hello")
      ≠ .error .malformed :=
  ⟨by decide,
   (c7_length_mismatch (bs "blob") 7 (bs "hello") (by decide)).1 (by decide),
   (c7_length_mismatch (bs "blob") 5 (bs "hello") (by decide)).2 (by decide)⟩

/-- C2: evaluation of object_read's dispatch on well-framed stored
objects of each recognized type, and on an unrecognized type.  Only the
unknown-token arm behaves as the claim says (a fatal unknown-type
error).  A commit is not decoded through the KVLM codec and a blob is
not passed through: both constructors fall back to
GitObject.deserialize, which raises Exception("Unimplemented!"), since
the second def of serialize in each class shadows the first and no
deserialize is ever defined; tree and tag name classes that do not
exist, so the match arms raise NameError. -/
theorem c2_dispatch_behaviour :
    objectReadRaw (objectFrame (bs "commit") (bs "tree abc\n\nmsg\n"))
      = .error .unimplemented ∧
    objectReadRaw (objectFrame (bs "blob") (bs "hello")) = .error .unimplemented ∧
    objectReadRaw (objectFrame (bs "tree") (bs "x")) = .error .nameError ∧
    objectReadRaw (objectFrame (bs "tag") (bs "x")) = .error .nameError ∧
    objectReadRaw (objectFrame (bs "wat") (bs "x")) = .error .unknownType := by
  decide

/-! ## SHA-1 (model of hashlib.sha1, following FIPS 180-4)

The source computes hashlib.sha1(result).hexdigest(); the hash is
modelled bit-for-bit over bytes, with 32-bit words as naturals reduced
modulo 2^32. -/

/-- Reduction to a 32-bit word. -/
def w32 (x : Nat) : Nat := x % 4294967296

/-- Left rotation of a 32-bit word (input below 2^32). -/
def rotl32 (s x : Nat) : Nat := w32 (x <<< s ||| x >>> (32 - s))

/-- Round constants. -/
def sha1K (i : Nat) : Nat :=
  if i < 20 then 0x5A827999 else if i < 40 then 0x6ED9EBA1
  else if i < 60 then 0x8F1BBCDC else 0xCA62C1D6

/-- Round functions (complement as xor with the all-ones word). -/
def sha1F (i b c d : Nat) : Nat :=
  if i < 20 then (b &&& c) ||| ((b ^^^ 4294967295) &&& d)
  else if i < 40 then b ^^^ c ^^^ d
  else if i < 60 then (b &&& c) ||| (b &&& d) ||| (c &&& d)
  else b ^^^ c ^^^ d

/-- Big-endian 32-bit words of a block of bytes. -/
def bytesToWords : Bytes → List Nat
  | b0 :: b1 :: b2 :: b3 :: rest =>
    (b0 * 16777216 + b1 * 65536 + b2 * 256 + b3) :: bytesToWords rest
  | _ => []

/-- Message-schedule extension of the 16 block words to 80. -/
def sha1ExtendGo : Nat → List Nat → List Nat
  | 0, ws => ws
  | f + 1, ws =>
    let i := ws.length
    let w := rotl32 1 ((ws.getD (i - 3) 0) ^^^ (ws.getD (i - 8) 0)
      ^^^ (ws.getD (i - 14) 0) ^^^ (ws.getD (i - 16) 0))
    sha1ExtendGo f (ws ++ [w])

/-- The eighty compression rounds. -/
def sha1Rounds : Nat → Nat × Nat × Nat × Nat × Nat → List Nat → Nat × Nat × Nat × Nat × Nat
  | _, st, [] => st
  | i, (a, b, c, d, e), w :: ws =>
    let temp := w32 (rotl32 5 a + sha1F i b c d + e + sha1K i + w)
    sha1Rounds (i + 1) (temp, a, rotl32 30 b, c, d) ws

/-- Compression of one 64-byte block into the running state. -/
def sha1Block (h : Nat × Nat × Nat × Nat × Nat) (block : Bytes) : Nat × Nat × Nat × Nat × Nat :=
  let ws := sha1ExtendGo 64 (bytesToWords block)
  match sha1Rounds 0 h ws with
  | (a, b, c, d, e) =>
    (w32 (h.1 + a), w32 (h.2.1 + b), w32 (h.2.2.1 + c), w32 (h.2.2.2.1 + d), w32 (h.2.2.2.2 + e))

/-- Big-endian byte rendering of a value into a fixed number of bytes. -/
def toBytesBE : Nat → Nat → Bytes
  | 0, _ => []
  | k + 1, v => toBytesBE k (v / 256) ++ [v % 256]

/-- Merkle-Damgard padding: a 0x80 byte, zeros to 56 mod 64, and the
bit length as eight big-endian bytes. -/
def sha1Pad (msg : Bytes) : Bytes :=
  let padlen := (55 + 64 - msg.length % 64) % 64
  msg ++ [128] ++ List.replicate padlen 0 ++ toBytesBE 8 ((msg.length * 8) % 18446744073709551616)

/-- Block iteration (the fuel dominates the number of blocks). -/
def sha1Blocks : Nat → Nat × Nat × Nat × Nat × Nat → Bytes → Nat × Nat × Nat × Nat × Nat
  | 0, h, _ => h
  | _ + 1, h, [] => h
  | f + 1, h, msg => sha1Blocks f (sha1Block h (msg.take 64)) (msg.drop 64)

/-- Lowercase hexadecimal digit of a value below 16. -/
def hexDigit (n : Nat) : Nat := if n < 10 then 48 + n else 87 + n

/-- Eight lowercase hex characters of a 32-bit word, most significant
nibble first. -/
def toHex8 (w : Nat) : Bytes :=
  (List.range 8).map fun i => hexDigit ((w >>> (28 - 4 * i)) % 16)

/-- Model of hashlib.sha1(msg).hexdigest(): the 40 lowercase hex
characters of the 160-bit digest, as bytes. -/
def sha1hex (msg : Bytes) : Bytes :=
  let padded := sha1Pad msg
  match sha1Blocks padded.length
      (0x67452301, 0xEFCDAB89, 0x98BADCFE, 0x10325476, 0xC3D2E1F0) padded with
  | (h0, h1, h2, h3, h4) => toHex8 h0 ++ toHex8 h1 ++ toHex8 h2 ++ toHex8 h3 ++ toHex8 h4

-- Sanity anchor: the SHA-1 digest of the empty message.
set_option maxRecDepth 4000 in
example : sha1hex [] = bs "da39a3ee5e6b4b0d3255bfef95601890afd80709" := by decide

/-! ## The filesystem model and the repository path helpers

Paths are absolute lists of byte-string components; the filesystem is a
finite association list from paths to nodes, queried first-match so a
write shadows older entries.  The root [] always exists as a directory. -/

/-- An absolute path, as a list of name components. -/
abbrev Path := List Bytes

/-- A filesystem node: a regular file with its content, or a directory. -/
inductive FsNode where
  | file (content : Bytes)
  | dir
deriving DecidableEq, Repr

/-- The filesystem: an association list from absolute paths to nodes. -/
structure FS where
  entries : List (Path × FsNode)
deriving DecidableEq, Repr

def FS.lookup (fs : FS) (p : Path) : Option FsNode :=
  if p = [] then some .dir
  else (fs.entries.find? (fun e => e.1 == p)).map Prod.snd

/-- Model of os.path.exists. -/
def pexists (fs : FS) (p : Path) : Bool := (fs.lookup p).isSome

/-- Model of os.path.isdir. -/
def isdir (fs : FS) (p : Path) : Bool := fs.lookup p == some .dir

/-- Model of os.path.isfile. -/
def isfile (fs : FS) (p : Path) : Bool :=
  match fs.lookup p with
  | some (.file _) => true
  | _ => false

/-- Writing a file shadows any previous entry at the path. -/
def FS.writeFile (fs : FS) (p : Path) (content : Bytes) : FS :=
  ⟨(p, .file content) :: fs.entries⟩

/-- Model of os.makedirs: create the directory and all missing
ancestors.  (The scenarios proved here never call it with a file in the
way, which in Python would raise; conflicts are not modelled.) -/
def FS.mkdirAll (fs : FS) (p : Path) : FS :=
  ⟨((List.range p.length).map fun i => (p.take (i + 1), FsNode.dir)) ++ fs.entries⟩

/-- Model of zlib.compress / zlib.decompress: an invertible stream
coding whose on-disk byte format is irrelevant to every claim in scope —
the claims depend only on decompress inverting compress — so the coding
is modelled as the identity on byte strings. -/
def zlibCompress (data : Bytes) : Bytes := data

/-- Inverse of zlibCompress; see its docstring. -/
def zlibDecompress (data : Bytes) : Bytes := data

/-- The repository handle: worktree and gitdir = worktree/.git
(configuration reading is modelled separately, in gitRepositoryMk). -/
structure GitRepository where
  worktree : Path
  gitdir : Path
deriving DecidableEq, Repr

/-- Model of repo_path (lines 90-94). -/
def repo_path (repo : GitRepository) (path : Path) : Path := repo.gitdir ++ path

/-- Model of repo_dir (lines 106-119); the returned filesystem carries
the effect of a makedirs call. -/
def repo_dir (fs : FS) (repo : GitRepository) (path : Path) (mkdir : Bool) :
    Except PyErr (Option Path × FS) :=
  let p := repo_path repo path
  if pexists fs p then
    if isdir fs p then .ok (some p, fs) else .error .notADirectory
  else if mkdir then .ok (some p, fs.mkdirAll p)
  else .ok (none, fs)

/-- Model of repo_file (lines 97-103): make the dirname when asked and
return the full path when the dirname exists (None otherwise). -/
def repo_file (fs : FS) (repo : GitRepository) (path : Path) (mkdir : Bool) :
    Except PyErr (Option Path × FS) :=
  pyBind (repo_dir fs repo path.dropLast mkdir) fun res =>
    match res with
    | (some _, fs') => .ok (some (repo_path repo path), fs')
    | (none, fs') => .ok (none, fs')

/-! ## Claims C1, C5, C6: the object store on the filesystem -/

/-- Model of object_read (lines 225-264).  The storage path is resolved
as objects/sha[0:2]/sha[2:]; when repo_file yields no path (the fan-out
subdirectory does not exist) the source calls os.path.isfile(None),
which raises TypeError; when the path is not a regular file the function
returns None (object not found); otherwise the decompressed content is
parsed and dispatched (objectReadRaw). -/
def object_read (fs : FS) (repo : GitRepository) (sha : Bytes) : Except PyErr (Option Empty) :=
  pyBind (repo_file fs repo [bs "objects", sha.take 2, sha.drop 2] false) fun res =>
    match res.1 with
    | none => .error .typeError
    | some path =>
      match res.2.lookup path with
      | some (.file content) => (objectReadRaw (zlibDecompress content)).map some
      | _ => .ok none

/-- Model of object_write from line 270 on (lines 270-283), with data
standing for the bytes obj.serialize() would return — the call itself
raises for every constructible object (see pySerialize).  Note the
storage path of line 277: repo_file(repo, "objects", sha[0:2],
mkdir=True) — the remaining 38 characters sha[2:] are not part of the
path, so the compressed bytes are written to a file named by the first
two hex characters directly under objects/. -/
def objectWriteData (fs : FS) (object_type data : Bytes) (repo : Option GitRepository) :
    Except PyErr (Bytes × FS) :=
  let result := objectFrame object_type data
  let sha := sha1hex result
  match repo with
  | none => .ok (sha, fs)
  | some repo =>
    pyBind (repo_file fs repo [bs "objects", sha.take 2] true) fun res =>
      match res.1 with
      | none => .error .typeError
      | some path =>
        if ¬ pexists res.2 path then .ok (sha, res.2.writeFile path (zlibCompress result))
        else .ok (sha, res.2)

/-- The Python-semantics state of the GitObject subclasses.  GitBlob's
surviving serialize takes a data argument (the second def shadows the
first), so blobdata is only ever set through it; GitCommit's surviving
serialize takes none and its init sets kvlm to an empty plain dict,
modelled as none. -/
inductive GitObj where
  | blob (blobdata : Option Bytes)
  | commit (kvlm : Option KVLM)
deriving DecidableEq, Repr

/-- Model of obj.serialize() as called by object_write (line 269): for a
blob the surviving serialize(self, data) is missing its argument, a
TypeError; for a commit the surviving serialize(self) runs
kvlm_serialize(self.kvlm), which on the empty dict of init() raises
KeyError at kvlm[None]. -/
def pySerialize : GitObj → Except PyErr Bytes
  | .blob _ => .error .typeError
  | .commit none => .error .keyError
  | .commit (some k) => .ok (kvlm_serialize k)

/-- The class attribute object_type. -/
def GitObj.objType : GitObj → Bytes
  | .blob _ => bs "blob"
  | .commit _ => bs "commit"

/-- Model of object_write (lines 267-283) taking the object itself. -/
def object_write (fs : FS) (obj : GitObj) (repo : Option GitRepository) :
    Except PyErr (Bytes × FS) :=
  pyBind (pySerialize obj) fun data => objectWriteData fs obj.objType data repo

/-- Model of GitBlob(data): __init__ calls deserialize for non-None
data, which is the inherited GitObject.deserialize raising
Exception("Unimplemented!"); GitBlob() leaves blobdata unset. -/
def gitBlobNew (data : Option Bytes) : Except PyErr GitObj :=
  match data with
  | some _ => .error .unimplemented
  | none => .ok (.blob none)

/-- Model of GitCommit(data); same __init__ behaviour as gitBlobNew,
and init() sets kvlm to an empty plain dict. -/
def gitCommitNew (data : Option Bytes) : Except PyErr GitObj :=
  match data with
  | some _ => .error .unimplemented
  | none => .ok (.commit none)

/-- Model of object_hash (lines 353-368): construct the typed object
from the data and hand it to object_write.  GitTree and GitTag do not
exist, so those arms raise NameError; the recognized constructors raise
Unimplemented during construction. -/
def object_hash (fs : FS) (data object_type : Bytes) (repo : Option GitRepository) :
    Except PyErr (Bytes × FS) :=
  if object_type = bs "commit" then
    pyBind (gitCommitNew (some data)) fun obj => object_write fs obj repo
  else if object_type = bs "tree" then .error .nameError
  else if object_type = bs "tag" then .error .nameError
  else if object_type = bs "blob" then
    pyBind (gitBlobNew (some data)) fun obj => object_write fs obj repo
  else .error .unknownType

/-- A concrete repository handle for evaluating the storage claims. -/
def repo0 : GitRepository := ⟨[bs "repo"], [bs "repo", bs ".git"]⟩

/-- A freshly initialised metadata area: the gitdir and its empty
objects directory, as repo_create lays them out. -/
def fs0 : FS :=
  ⟨[([bs "repo"], .dir), ([bs "repo", bs ".git"], .dir),
    ([bs "repo", bs ".git", bs "objects"], .dir)]⟩

set_option maxRecDepth 20000 in
/-- C5: the framing and digest step of object_write (lines 270-273)
computes exactly the digest of b"blob 5\x00hello" for a blob with
payload b"hello" — but the hash operation itself (object_hash with the
class constructors) raises Unimplemented before ever framing, because
GitBlob(data) falls back to GitObject.deserialize. -/
theorem c5_hash_framing (fs : FS) :
    objectFrame (bs "blob") (bs "hello") = bs "blob 5\x00hello" ∧
    sha1hex (bs "blob 5\x00hello") = bs "b6fc4c620b67d95f953a5c1c1230aaab5db5a1b0" ∧
    objectWriteData fs (bs "blob") (bs "hello") none
      = .ok (bs "b6fc4c620b67d95f953a5c1c1230aaab5db5a1b0", fs) ∧
    object_hash fs (bs "hello") (bs "blob") none = .error .unimplemented := by
  have hframe : objectFrame (bs "blob") (bs "hello") = bs "blob 5\x00hello" := by decide
  have hsha : sha1hex (bs "blob 5\x00hello") = bs "b6fc4c620b67d95f953a5c1c1230aaab5db5a1b0" := by
    decide
  refine ⟨hframe, hsha, ?_, rfl⟩
  show Except.ok (sha1hex (objectFrame (bs "blob") (bs "hello")), fs) = _
  rw [hframe, hsha]

set_option maxRecDepth 20000 in
/-- C1: evaluation of the write-then-read path on a fresh store.  The
write returns the digest of the framed blob and stores the compressed
bytes at objects/b6 — a file named by the first two hex characters
alone; nothing exists at the claimed objects/b6/<38-hex> path.  A
subsequent read of the returned digest resolves objects/b6/<38-hex>,
finds the path component objects/b6 occupied by a file instead of a
directory, and raises the Not-a-directory error instead of returning
the stored object. -/
theorem c1_write_then_read :
    (objectWriteData fs0 (bs "blob") (bs "hello") (some repo0)).map
        (fun r => (r.1,
          r.2.lookup [bs "repo", bs ".git", bs "objects", r.1.take 2],
          r.2.lookup [bs "repo", bs ".git", bs "objects", r.1.take 2, r.1.drop 2]))
      = .ok (bs "b6fc4c620b67d95f953a5c1c1230aaab5db5a1b0",
          some (.file (zlibCompress (objectFrame (bs "blob") (bs "hello")))),
          none) ∧
    (pyBind (objectWriteData fs0 (bs "blob") (bs "hello") (some repo0)) fun r =>
        object_read r.2 repo0 r.1)
      = .error .notADirectory := by
  decide

set_option maxRecDepth 20000 in
/-- C6: on a fresh store (no fan-out subdirectory yet), reading any
digest raises TypeError — repo_file returns None because objects/b6
does not exist, and os.path.isfile(None) raises — instead of returning
absent; the absent result only occurs when the fan-out subdirectory
already exists and the file alone is missing. -/
theorem c6_missing_object_read :
    object_read fs0 repo0 (bs "b6fc4c620b67d95f953a5c1c1230aaab5db5a1b0")
      = .error .typeError ∧
    object_read ⟨([bs "repo", bs ".git", bs "objects", bs "b6"], .dir) :: fs0.entries⟩ repo0
      (bs "b6fc4c620b67d95f953a5c1c1230aaab5db5a1b0")
      = .ok none := by
  decide

/-! ## Claim C8: the repository locator (repo_find, lines 182-200)

os.path.realpath is modelled on absolute, symlink-free paths: the . and
.. components are resolved left to right, .. at the root staying at the
root — exactly the canonicalization the locator relies on.  The
GitRepository construction (lines 68-87) reads the configuration with
configparser; the single lookup the source performs is modelled by a
small INI scanner. -/

/-- The . path component. -/
def dotC : Bytes := bs "."

/-- The .. path component. -/
def dotdotC : Bytes := bs ".."

/-- The metadata directory name. -/
def dotGitC : Bytes := bs ".git"

/-- One canonicalization step of realpath. -/
def realpathStep (acc : Path) (c : Bytes) : Path :=
  if c = dotC then acc else if c = dotdotC then acc.dropLast else acc ++ [c]

/-- Model of os.path.realpath for absolute, symlink-free paths. -/
def realpath (p : Path) : Path := p.foldl realpathStep []

/-- A path free of . and .. components. -/
def noDots (p : Path) : Prop := dotC ∉ p ∧ dotdotC ∉ p

instance (p : Path) : Decidable (noDots p) := by
  unfold noDots
  infer_instance

theorem realpath_append_one (p : Path) (c : Bytes) :
    realpath (p ++ [c]) = realpathStep (realpath p) c := by
  simp [realpath, List.foldl_append]

theorem realpathStep_dotdot (acc : Path) : realpathStep acc dotdotC = acc.dropLast := by
  unfold realpathStep
  rw [if_neg (by decide), if_pos rfl]

theorem foldl_realpathStep_noDots :
    ∀ (p : Path) (acc : Path), noDots acc → noDots (p.foldl realpathStep acc) := by
  intro p
  induction p with
  | nil => intro acc h; exact h
  | cons c p ih =>
    intro acc hacc
    rw [List.foldl_cons]
    apply ih
    unfold realpathStep
    by_cases hc1 : c = dotC
    · rw [if_pos hc1]; exact hacc
    · rw [if_neg hc1]
      by_cases hc2 : c = dotdotC
      · rw [if_pos hc2]
        exact ⟨fun hm => hacc.1 ((List.dropLast_sublist acc).mem hm),
               fun hm => hacc.2 ((List.dropLast_sublist acc).mem hm)⟩
      · rw [if_neg hc2]
        constructor
        · intro hm
          rcases List.mem_append.mp hm with h | h
          · exact hacc.1 h
          · simp at h; exact hc1 h.symm
        · intro hm
          rcases List.mem_append.mp hm with h | h
          · exact hacc.2 h
          · simp at h; exact hc2 h.symm

theorem realpath_noDots (p : Path) : noDots (realpath p) :=
  foldl_realpathStep_noDots p [] ⟨by simp, by simp⟩

theorem foldl_realpathStep_of_noDots :
    ∀ (p : Path) (acc : Path), noDots p → p.foldl realpathStep acc = acc ++ p := by
  intro p
  induction p with
  | nil => intro acc _; simp
  | cons c p ih =>
    intro acc hp
    have hc1 : c ≠ dotC := fun h => hp.1 (by rw [h]; exact List.mem_cons_self _ _)
    have hc2 : c ≠ dotdotC := fun h => hp.2 (by rw [h]; exact List.mem_cons_self _ _)
    have hp' : noDots p := ⟨fun h => hp.1 (List.mem_cons_of_mem _ h),
                            fun h => hp.2 (List.mem_cons_of_mem _ h)⟩
    rw [List.foldl_cons]
    have hstep : realpathStep acc c = acc ++ [c] := by
      unfold realpathStep
      rw [if_neg hc1, if_neg hc2]
    rw [hstep, ih _ hp']
    simp

theorem realpath_of_noDots (p : Path) (hp : noDots p) : realpath p = p := by
  have h := foldl_realpathStep_of_noDots p [] hp
  simpa [realpath] using h

/-- Canonicalizing a canonical path's parent is its dropLast. -/
theorem realpath_parent (c : Path) (hc : noDots c) :
    realpath (c ++ [dotdotC]) = c.dropLast := by
  rw [realpath_append_one, realpath_of_noDots c hc, realpathStep_dotdot]

/-! ### The configuration lookup of GitRepository.__init__ -/

/-- Strip of surrounding space and tab bytes, as configparser strips
around section names, keys and values. -/
def stripWs (s : Bytes) : Bytes :=
  ((s.dropWhile fun b => b == 32 || b == 9).reverse.dropWhile fun b => b == 32 || b == 9).reverse

/-- Split at the first occurrence of byte c, returning both sides. -/
def splitAtByte (c : Nat) : Bytes → Option (Bytes × Bytes)
  | [] => none
  | a :: t =>
    if a = c then some ([], t)
    else (splitAtByte c t).map fun pr => (a :: pr.1, pr.2)

/-- Split into newline-separated lines. -/
def splitLines : Bytes → List Bytes
  | [] => [[]]
  | a :: t =>
    if a = 10 then [] :: splitLines t
    else
      match splitLines t with
      | l :: ls => (a :: l) :: ls
      | [] => [[a]]

/-- Worker for iniLookup: scan lines, tracking the current section. -/
def iniLookupGo (wantSection wantKey : Bytes) : List Bytes → Bytes → Option Bytes
  | [], _ => none
  | line :: rest, cur =>
    let l := stripWs line
    if l.head? = some 91 ∧ l.getLast? = some 93 then
      iniLookupGo wantSection wantKey rest (stripWs ((l.drop 1).dropLast))
    else
      match splitAtByte 61 l with
      | some (k, v) =>
        if cur = wantSection ∧ stripWs k = wantKey then some (stripWs v)
        else iniLookupGo wantSection wantKey rest cur
      | none => iniLookupGo wantSection wantKey rest cur

/-- Modelled from the spec: the configuration schema of section 6
(section core, key repositoryformatversion) as read through Python's
configparser, which is library code outside this repository.  Only what
the source needs is modelled: section headers in brackets and
key = value lines, names and values stripped of surrounding blanks.
Returns the value of the wanted key in the wanted section. -/
def iniLookup (content : Bytes) (wantSection wantKey : Bytes) : Option Bytes :=
  iniLookupGo wantSection wantKey (splitLines content) []

/-- Model of GitRepository.__init__ (lines 68-87): require the metadata
directory (unless forced), locate .git/config through repo_file, read it
when present (a missing config raises unless forced), and unless forced
check that core.repositoryformatversion parses to 0. -/
def gitRepositoryMk (fs : FS) (path : Path) (force : Bool) : Except PyErr GitRepository :=
  let gitdir := path ++ [dotGitC]
  let repo : GitRepository := ⟨path, gitdir⟩
  if ¬ (force || isdir fs gitdir) then .error .notARepo
  else
    pyBind (repo_file fs repo [bs "config"] false) fun res =>
      let confData : Option Bytes :=
        match res.1 with
        | some cf =>
          match fs.lookup cf with
          | some (.file content) => some content
          | _ => none
        | none => none
      let cfReadable : Bool :=
        match res.1 with
        | some cf => pexists fs cf
        | none => false
      if cfReadable = false ∧ force = false then .error .configMissing
      else if force then .ok repo
      else
        match confData with
        | none => .error .configError
        | some content =>
          match iniLookup content (bs "core") (bs "repositoryformatversion") with
          | none => .error .configError
          | some v =>
            pyBind (pyInt v) fun vers =>
              if vers ≠ 0 then .error .unsupportedVersion else .ok repo

/-! ### The locator walk -/

/-- Worker of repo_find: the path argument is canonical (realpath is
applied by the wrapper once and is idempotent, so re-applying it at
every level as the source does changes nothing).  The fuel dominates the
depth of the path, so the wrapper never exhausts it. -/
def repoFindGo (fs : FS) : Nat → Path → Bool → Except PyErr (Option GitRepository)
  | 0, _, _ => .error .outOfFuel
  | fuel + 1, path, required =>
    if isdir fs (path ++ [dotGitC]) then (gitRepositoryMk fs path false).map some
    else
      let parent := realpath (path ++ [dotdotC])
      if parent = path then
        if required then .error .noGitDir else .ok none
      else repoFindGo fs fuel parent required

/-- Model of repo_find (lines 182-200). -/
def repo_find (fs : FS) (path : Path) (required : Bool) : Except PyErr (Option GitRepository) :=
  repoFindGo fs ((realpath path).length + 1) (realpath path) required

/-- The candidate chain the locator walks: a canonical path and its
ancestors up to the root (fuelled worker; the fuel dominates). -/
def ancChainGo : Nat → Path → List Path
  | 0, p => [p]
  | _ + 1, [] => [[]]
  | fuel + 1, p => p :: ancChainGo fuel p.dropLast

/-- The ancestors of a path, from the path itself down to the root. -/
def ancChain (p : Path) : List Path := ancChainGo p.length p

/-- The first ancestor of the canonicalized start path that contains
the metadata directory — the root the locator should return. -/
def specFirstRepo (fs : FS) (start : Path) : Option Path :=
  (ancChain (realpath start)).find? fun a => isdir fs (a ++ [dotGitC])

theorem ancChain_eq (c : Path) :
    ancChain c = c :: (if c = [] then [] else ancChain c.dropLast) := by
  cases c with
  | nil => rfl
  | cons x cs =>
    rw [if_neg (by simp)]
    show ancChainGo (cs.length + 1) (x :: cs) = _
    have h : ancChainGo (cs.length + 1) (x :: cs)
        = (x :: cs) :: ancChainGo cs.length (x :: cs).dropLast := rfl
    rw [h]
    unfold ancChain
    rw [show ((x :: cs).dropLast).length = cs.length by simp]

/-- Unfolding equation of repoFindGo at positive fuel. -/
theorem repoFindGo_succ (fs : FS) (f : Nat) (path : Path) (required : Bool) :
    repoFindGo fs (f + 1) path required =
      if isdir fs (path ++ [dotGitC]) then (gitRepositoryMk fs path false).map some
      else if realpath (path ++ [dotdotC]) = path then
        (if required then .error .noGitDir else .ok none)
      else repoFindGo fs f (realpath (path ++ [dotdotC])) required := rfl

/-- The walk visits exactly the ancestor chain: it returns the handle
built at the first ancestor containing the metadata directory, and the
required-dependent not-found outcome when none does. -/
theorem repoFindGo_spec :
    ∀ (n : Nat) (c : Path), c.length ≤ n → noDots c →
    ∀ (fs : FS) (required : Bool) (fuel : Nat), c.length + 1 ≤ fuel →
    (((ancChain c).find? fun a => isdir fs (a ++ [dotGitC])) = none →
      repoFindGo fs fuel c required = if required then .error .noGitDir else .ok none) ∧
    (∀ a r, ((ancChain c).find? fun a => isdir fs (a ++ [dotGitC])) = some a →
      gitRepositoryMk fs a false = .ok r →
      repoFindGo fs fuel c required = .ok (some r)) := by
  intro n
  induction n with
  | zero =>
    intro c hc hnd fs required fuel hfuel
    have hc0 : c = [] := List.length_eq_zero.mp (Nat.le_zero.mp hc)
    subst hc0
    obtain ⟨f, rfl⟩ : ∃ f, fuel = f + 1 := ⟨fuel - 1, by omega⟩
    rw [ancChain_eq, if_pos rfl]
    have hpar : realpath (([] : Path) ++ [dotdotC]) = ([] : Path) := by
      rw [realpath_parent [] ⟨by simp, by simp⟩]
      rfl
    by_cases hgit : isdir fs (([] : Path) ++ [dotGitC])
    · constructor
      · intro hnone
        have hgitn : isdir fs [dotGitC] = true := by simpa using hgit
        simp [List.find?, hgitn] at hnone
      · intro a r hsome hmk
        have hgitn : isdir fs [dotGitC] = true := by simpa using hgit
        simp only [List.find?, List.nil_append, hgitn, Option.some.injEq] at hsome
        rw [← hsome] at hmk
        rw [repoFindGo_succ, if_pos hgit, hmk]
        rfl
    · have hgitn : isdir fs [dotGitC] = false := by simpa using hgit
      constructor
      · intro _
        rw [repoFindGo_succ, if_neg hgit, if_pos hpar]
      · intro a r hsome _
        simp [List.find?, hgitn] at hsome
  | succ n ih =>
    intro c hc hnd fs required fuel hfuel
    by_cases hcnil : c = []
    · subst hcnil
      exact ih [] (by simp) hnd fs required fuel (by simpa using hfuel)
    · obtain ⟨f, rfl⟩ : ∃ f, fuel = f + 1 := ⟨fuel - 1, by omega⟩
      by_cases hgit : isdir fs (c ++ [dotGitC])
      · constructor
        · intro hnone
          rw [ancChain_eq] at hnone
          simp [List.find?, hgit] at hnone
        · intro a r hsome hmk
          rw [ancChain_eq] at hsome
          simp only [List.find?, hgit, Option.some.injEq] at hsome
          rw [← hsome] at hmk
          rw [repoFindGo_succ, if_pos hgit, hmk]
          rfl
      · have hpar : realpath (c ++ [dotdotC]) = c.dropLast := realpath_parent c hnd
        have hlen0 : c.length ≠ 0 := fun h => hcnil (List.length_eq_zero.mp h)
        have hparne : c.dropLast ≠ c := by
          intro h
          have hh := congrArg List.length h
          rw [List.length_dropLast] at hh
          omega
        have hstep : repoFindGo fs (f + 1) c required = repoFindGo fs f c.dropLast required := by
          rw [repoFindGo_succ, if_neg hgit, hpar, if_neg hparne]
        have hgit' : isdir fs (c ++ [dotGitC]) = false := by simpa using hgit
        have hfind : ((ancChain c).find? fun a => isdir fs (a ++ [dotGitC]))
            = ((ancChain c.dropLast).find? fun a => isdir fs (a ++ [dotGitC])) := by
          rw [ancChain_eq, if_neg hcnil]
          simp [List.find?, hgit']
        have hlen' : c.dropLast.length ≤ n := by
          rw [List.length_dropLast]
          omega
        have hnd' : noDots c.dropLast :=
          ⟨fun h => hnd.1 ((List.dropLast_sublist c).mem h),
           fun h => hnd.2 ((List.dropLast_sublist c).mem h)⟩
        have hfl : c.dropLast.length + 1 ≤ f := by
          rw [List.length_dropLast]
          omega
        obtain ⟨hnone, hsome⟩ := ih c.dropLast hlen' hnd' fs required f hfl
        constructor
        · intro h
          rw [hstep]
          exact hnone (by rw [← hfind]; exact h)
        · intro a r hsome' hmk
          rw [hstep]
          exact hsome a r (by rw [← hfind]; exact hsome') hmk


/-- C8: repo_find canonicalizes the start path and checks each
directory from it upward for the .git subdirectory.  When no ancestor
(up to and including the filesystem root, where the parent of a
candidate equals the candidate) contains it, the walk fails with the
no-git-directory error if required is true and returns absent
otherwise; when a first ancestor contains it, the walk returns the
repository handle constructed there (its construction reading the
configuration — the handle hypothesis below). -/
theorem c8_locate (fs : FS) (start : Path) (required : Bool) :
    (specFirstRepo fs start = none →
      repo_find fs start required = if required then .error .noGitDir else .ok none) ∧
    (∀ a r, specFirstRepo fs start = some a →
      gitRepositoryMk fs a false = .ok r →
      repo_find fs start required = .ok (some r)) :=
  repoFindGo_spec (realpath start).length (realpath start) (le_refl _)
    (realpath_noDots start) fs required ((realpath start).length + 1) (le_refl _)

/-- The default configuration text repo_create writes. -/
def cfgText : Bytes :=
  bs "[core]\nrepositoryformatversion = 0\nfilemode = false\nbare = false\n"

/-- A directory tree /a/b/c with repository metadata at /a/b, plus an
unrelated /x/y with no metadata anywhere in its ancestry. -/
def fsC8 : FS :=
  ⟨[([bs "a"], .dir), ([bs "a", bs "b"], .dir),
    ([bs "a", bs "b", bs ".git"], .dir),
    ([bs "a", bs "b", bs ".git", bs "config"], .file cfgText),
    ([bs "a", bs "b", bs "c"], .dir),
    ([bs "x"], .dir), ([bs "x", bs "y"], .dir)]⟩

set_option maxRecDepth 20000 in
/-- Witness for C8: locate("/a/b/c") returns the handle rooted at /a/b;
locate("/x/y") fails when required and returns absent when not. -/
theorem c8_locate_witness :
    specFirstRepo fsC8 [bs "a", bs "b", bs "c"] = some [bs "a", bs "b"] ∧
    repo_find fsC8 [bs "a", bs "b", bs "c"] true
      = .ok (some ⟨[bs "a", bs "b"], [bs "a", bs "b", bs ".git"]⟩) ∧
    repo_find fsC8 [bs "x", bs "y"] true = .error .noGitDir ∧
    repo_find fsC8 [bs "x", bs "y"] false = .ok none := by
  refine ⟨by decide, ?_, ?_, ?_⟩
  · exact (c8_locate fsC8 [bs "a", bs "b", bs "c"] true).2 [bs "a", bs "b"]
      ⟨[bs "a", bs "b"], [bs "a", bs "b", bs ".git"]⟩ (by decide) (by decide)
  · have h := (c8_locate fsC8 [bs "x", bs "y"] true).1 (by decide)
    simpa using h
  · have h := (c8_locate fsC8 [bs "x", bs "y"] false).1 (by decide)
    simpa using h

/-! ### Claim C9: the commit-graph walker log_graphviz (lines 476-505)

The walker is embedded over the faithful object_read of this file.  What
it would print is a list of events - a node line per visited commit
(line 490), an edge line per parent (line 503).  The Python seen set is
mutated in place; it is passed and returned explicitly here, and output
already printed when an exception escapes is not modelled: an
exceptional walk is just the error.

On the source as written the body after the guard is almost entirely
dead code: object_read can raise but can never produce an object (every
recognized constructor raises, see objectDispatch and claims C2/C5) -
its payload type here is Empty.  So after `commit = object_read(repo,
sha)` (line 481) either the read has raised, or commit is None (object
file absent) and `commit.kvlm` (line 483) raises AttributeError.  The
message decode, the node print, the assert of line 491 and the parent
loop with its recursive call (lines 494-504) are unreachable, which is
why the embedding needs no recursion: the continuation on an object is
the eliminator of Empty. -/

/-- A printed line of log_graphviz, abstracted to the digests it carries:
a node line per visited commit, an edge line per parent. -/
inductive LogEvent where
  | node (sha : Bytes)
  | edge (src dst : Bytes)
deriving DecidableEq, Repr

/-- Model of log_graphviz (lines 476-505): the guard of line 477 returns
immediately - before anything is read - when the digest is already in
seen; otherwise the digest is added to seen and the commit read, after
which the walk can only raise (see the section comment): the read's
error propagates, a None result raises AttributeError at commit.kvlm,
and the object case is vacuous. -/
def log_graphviz (fs : FS) (repo : GitRepository) (sha : Bytes) (seen : List Bytes) :
    Except PyErr (List Bytes × List LogEvent) :=
  if sha ∈ seen then .ok (seen, [])
  else
    pyBind (object_read fs repo sha) fun commit =>
      match commit with
      | none => .error .attributeError
      | some e => e.elim

/-- The shared ancestor's digest in the diamond history below. -/
def shaR : Bytes := bs "cccccccccccccccccccccccccccccccccccccccc"

/-- The merge tip's digest. -/
def shaM : Bytes := bs "dddddddddddddddddddddddddddddddddddddddd"

/-- The left parent's digest. -/
def shaA : Bytes := bs "aaaaaaaaaaaaaaaaaaaaaaaaaaaaaaaaaaaaaaaa"

/-- The right parent's digest. -/
def shaB : Bytes := bs "bbbbbbbbbbbbbbbbbbbbbbbbbbbbbbbbbbbbbbbb"

/-- The kvlm body of the merge tip: two parent fields, blank line, message. -/
def kvlmM : Bytes := bs "parent " ++ shaA ++ [10] ++ bs "parent " ++ shaB ++ [10, 10] ++ bs "merge"

/-- The kvlm body of the left parent, child of the shared root. -/
def kvlmA : Bytes := bs "parent " ++ shaR ++ [10, 10] ++ bs "left"

/-- The kvlm body of the right parent, child of the shared root. -/
def kvlmB : Bytes := bs "parent " ++ shaR ++ [10, 10] ++ bs "right"

/-- The kvlm body of the shared root: no fields, just the message. -/
def kvlmR : Bytes := [10] ++ bs "root"

/-- A repository holding the diamond history, every commit correctly
framed and stored at its fan-out path objects/sha[0:2]/sha[2:] (the
layout object_read expects - reached here by hand, since object_write
cannot produce it, see C1). -/
def fsD : FS :=
  ⟨[([bs "repo"], .dir), ([bs "repo", bs ".git"], .dir),
    ([bs "repo", bs ".git", bs "objects"], .dir),
    ([bs "repo", bs ".git", bs "objects", bs "dd"], .dir),
    ([bs "repo", bs ".git", bs "objects", bs "dd", shaM.drop 2],
      .file (zlibCompress (objectFrame (bs "commit") kvlmM))),
    ([bs "repo", bs ".git", bs "objects", bs "aa"], .dir),
    ([bs "repo", bs ".git", bs "objects", bs "aa", shaA.drop 2],
      .file (zlibCompress (objectFrame (bs "commit") kvlmA))),
    ([bs "repo", bs ".git", bs "objects", bs "bb"], .dir),
    ([bs "repo", bs ".git", bs "objects", bs "bb", shaB.drop 2],
      .file (zlibCompress (objectFrame (bs "commit") kvlmB))),
    ([bs "repo", bs ".git", bs "objects", bs "cc"], .dir),
    ([bs "repo", bs ".git", bs "objects", bs "cc", shaR.drop 2],
      .file (zlibCompress (objectFrame (bs "commit") kvlmR)))]⟩

set_option maxRecDepth 20000 in
/-- C9: on the program as written the claimed diamond walk cannot
happen.  First conjunct pair: the guard of line 477 does behave as
claimed - a digest already in the visited set returns at once with the
set unchanged and nothing emitted, and nothing is read: the result is
the same over the fully stocked diamond repository and over a fresh
empty one.  Last conjunct: the walk from the merge tip with an empty
visited set raises Exception("Unimplemented!") at its very first
object_read (the GitCommit constructor, claim C2), so it emits no node
at all - the shared ancestor cccc... is emitted zero times, not exactly
once. -/
theorem c9_diamond_walk :
    log_graphviz fsD repo0 shaR [shaR] = .ok ([shaR], []) ∧
    log_graphviz fs0 repo0 shaR [shaR] = .ok ([shaR], []) ∧
    log_graphviz fsD repo0 shaM [] = .error .unimplemented := by
  refine ⟨by decide, by decide, by decide⟩

end Wyag
